import Mathlib

/-!
Shallow embedding of the vox9-web-poc caption engine (src/app/tts.py and
src/app/captions_toolkit.py) over `List Char` for text and `ℚ` for
floating-point seconds.  Python strings are modelled as lists of characters;
the regular-expression substitutions of `clean_text` are modelled by
recursive functions implementing the same rewrites; Python's `str.strip` /
`str.split` (no argument) are modelled over the standard ASCII whitespace
set used by the regexes (space, tab, newline, carriage return, form feed,
vertical tab).  Machine floats are modelled by exact rationals.
-/

namespace Vox9

/-- Horizontal whitespace, the regex class `[ \t\f\v]` used in
`tts.clean_text` (`\x0b` is `\v`, `\x0c` is `\f`). -/
def isHWS (c : Char) : Bool :=
  c == ' ' || c == '\t' || c == '\x0c' || c == '\x0b'

/-- Python whitespace for `str.strip()` / `str.split()` / regex `\s`,
restricted to the ASCII whitespace characters. -/
def isPyWS (c : Char) : Bool :=
  c == ' ' || c == '\t' || c == '\n' || c == '\r' || c == '\x0c' || c == '\x0b'

/-- Model of `raw.replace("\r\n", "\n")`. -/
def replCRLF : List Char → List Char
  | '\r' :: '\n' :: rest => '\n' :: replCRLF rest
  | c :: rest => c :: replCRLF rest
  | [] => []

/-- Model of `t.replace("\r", "\n")`. -/
def replCR (l : List Char) : List Char :=
  l.map (fun c => if c = '\r' then '\n' else c)

/-- Model of `re.sub(p_run_class, r, t)`: every maximal run of characters
satisfying `p` is replaced by the single character `r`. -/
def collapseRuns (p : Char → Bool) (r : Char) : List Char → List Char
  | [] => []
  | c :: rest =>
    if p c then r :: collapseRuns p r (rest.dropWhile p)
    else c :: collapseRuns p r rest
  termination_by l => l.length
  decreasing_by
    · exact Nat.lt_succ_of_le ((List.dropWhile_sublist p).length_le)
    · simp

/-- Model of `re.sub(r"\t+", " ", t)`. -/
def collapseTabs (l : List Char) : List Char :=
  collapseRuns (fun c => c == '\t') ' ' l

/-- Model of `re.sub(r"[ \t\f\v]+", " ", t)`. -/
def collapseHWS (l : List Char) : List Char :=
  collapseRuns isHWS ' ' l

/-- Model of `re.sub(r"[ \t\f\v]*\n[ \t\f\v]*", "\n", t)`: every newline
absorbs the horizontal-whitespace runs touching it on either side. -/
def trimNL : List Char → List Char
  | [] => []
  | c :: rest =>
    if c = '\n' then '\n' :: trimNL (rest.dropWhile isHWS)
    else if isHWS c then
      if (rest.dropWhile isHWS).head? = some '\n' then
        trimNL (rest.dropWhile isHWS)
      else
        (c :: rest.takeWhile isHWS) ++ trimNL (rest.dropWhile isHWS)
    else c :: trimNL rest
  termination_by l => l.length
  decreasing_by
    · exact Nat.lt_succ_of_le ((List.dropWhile_sublist isHWS).length_le)
    · exact Nat.lt_succ_of_le ((List.dropWhile_sublist isHWS).length_le)
    · exact Nat.lt_succ_of_le ((List.dropWhile_sublist isHWS).length_le)
    · simp

/-- Model of `re.sub(r"\n{3,}", "\n\n", t)`: every maximal run of three or
more newlines is replaced by exactly two. -/
def collapseNL3 : List Char → List Char
  | '\n' :: '\n' :: '\n' :: rest =>
      '\n' :: '\n' :: collapseNL3 (rest.dropWhile (fun c => c == '\n'))
  | c :: rest => c :: collapseNL3 rest
  | [] => []
  termination_by l => l.length
  decreasing_by
    · exact Nat.lt_succ_of_le (Nat.le_succ_of_le (Nat.le_succ_of_le
        ((List.dropWhile_sublist _).length_le)))
    · simp

/-- Model of Python `t.split("\n")`. -/
def splitNL : List Char → List (List Char)
  | [] => [[]]
  | '\n' :: rest => [] :: splitNL rest
  | c :: rest => (splitNL rest).modifyHead (c :: ·)

/-- Strip characters satisfying `p` from the end of a list (Python
`rstrip`). -/
def dropEnd (p : Char → Bool) (l : List Char) : List Char :=
  List.rdropWhile p l

/-- Model of Python `s.strip()` over ASCII whitespace. -/
def pyStrip (l : List Char) : List Char :=
  dropEnd isPyWS (l.dropWhile isPyWS)

/-- Model of `tts.clean_text`: normalize line endings, collapse tab runs,
collapse horizontal-whitespace runs to one space, strip horizontal
whitespace around newlines, collapse 3+ newlines to 2, strip every line,
and strip the whole string. -/
def clean_text (raw : List Char) : List Char :=
  let t5 := collapseNL3 (trimNL (collapseHWS (collapseTabs (replCR (replCRLF raw)))))
  pyStrip (List.intercalate ['\n'] ((splitNL t5).map pyStrip))

/-- The intermediate value `t` of `clean_text` after its six rewrite passes
(before the per-line strips and the final overall strip). -/
def cleanPasses (raw : List Char) : List Char :=
  collapseNL3 (trimNL (collapseHWS (collapseTabs (replCR (replCRLF raw)))))

/-- The complete whitespace class of Python `str.strip()` / `str.split()`
(CPython `str.isspace`): the six ASCII whitespace characters together with
the separator controls `\\x1c`-`\\x1f`, NEL `\\x85`, NBSP `\\xa0`, and the
Unicode space characters. -/
def isPyWSFull (c : Char) : Bool :=
  isPyWS c || c == '\x1c' || c == '\x1d' || c == '\x1e' || c == '\x1f' ||
    c == '\x85' || c == '\xa0' || c == '\u1680' ||
    c == '\u2000' || c == '\u2001' || c == '\u2002' || c == '\u2003' ||
    c == '\u2004' || c == '\u2005' || c == '\u2006' || c == '\u2007' ||
    c == '\u2008' || c == '\u2009' || c == '\u200a' ||
    c == '\u2028' || c == '\u2029' || c == '\u202f' || c == '\u205f' ||
    c == '\u3000'

/-- Model of Python `s.strip()` over the complete whitespace class. -/
def pyStripFull (l : List Char) : List Char :=
  dropEnd isPyWSFull (l.dropWhile isPyWSFull)

/-- Faithful model of `tts.clean_text`: identical to `clean_text` above
except that the per-line strips and the final overall strip remove the
complete Python whitespace class rather than only its ASCII part (the six
rewrite passes use explicit ASCII character classes in the source and are
exact either way). -/
def clean_text_py (raw : List Char) : List Char :=
  let t5 := collapseNL3 (trimNL (collapseHWS (collapseTabs (replCR (replCRLF raw)))))
  pyStripFull (List.intercalate ['\n'] ((splitNL t5).map pyStripFull))

/-- Model of Python `t.split("\n\n")` (used by `split_into_sentences`). -/
def splitDoubleNL : List Char → List (List Char)
  | '\n' :: '\n' :: rest => [] :: splitDoubleNL rest
  | c :: rest => (splitDoubleNL rest).modifyHead (c :: ·)
  | [] => [[]]

/-- Model of Python `s.split()` with no separator: maximal runs of
non-whitespace characters, surrounding whitespace dropped. -/
def wordsOf : List Char → List (List Char)
  | [] => []
  | c :: rest =>
    if isPyWS c then wordsOf rest
    else (c :: rest.takeWhile (fun d => !isPyWS d))
           :: wordsOf (rest.dropWhile (fun d => !isPyWS d))
  termination_by l => l.length
  decreasing_by
    · simp
    · exact Nat.lt_succ_of_le ((List.dropWhile_sublist _).length_le)

/-- Quote and bracket characters stripped from the end of a token by
`_ends_with_abbrev` (Python `rstrip("\"'”’)]}")`). -/
def closingQuoteChars : List Char := ['"', '\'', '”', '’', ')', ']', '}']

/-- Quote and bracket characters stripped from the start of a token by
`_starts_like_new_sentence` (Python `lstrip("\"'“”‘’([{")`). -/
def openingQuoteChars : List Char := ['"', '\'', '“', '”', '‘', '’', '(', '[', '{']

/-- The closed abbreviation set `_NON_TERMINAL_ABBREVIATIONS`. -/
def abbrevTokens : List (List Char) := ["mr.".data, "mrs.".data]

/-- The closed common-sentence-starter set `_COMMON_STARTERS`. -/
def starterTokens : List (List Char) :=
  ["a".data, "an".data, "and".data, "but".data, "he".data, "she".data,
   "it".data, "i".data, "you".data, "we".data, "they".data, "the".data,
   "there".data, "these".data, "those".data, "this".data]

/-- Model of Python `s.lower()` (ASCII case folding). -/
def lowerL (s : List Char) : List Char := s.map Char.toLower

/-- Model of `tts._ends_with_abbrev`: the last whitespace-separated word of
`s`, with trailing quote/bracket characters stripped and lower-cased, is a
known non-terminal abbreviation. -/
def endsWithAbbrev (s : List Char) : Bool :=
  match (wordsOf (dropEnd isPyWS s)).getLast? with
  | none => false
  | some w => abbrevTokens.contains
      (lowerL (dropEnd (fun c => closingQuoteChars.contains c) w))

/-- Model of `tts._starts_like_new_sentence`: the first word of `part`,
with leading quote characters stripped and lower-cased, is a common
sentence starter. -/
def startsLikeNewSentence (part : List Char) : Bool :=
  match (wordsOf part).head? with
  | none => false
  | some w => starterTokens.contains
      (lowerL (w.dropWhile (fun c => openingQuoteChars.contains c)))

/-- Terminal sentence punctuation of the split regex `(?<=[\.!?])\s+`. -/
def isTermPunct (c : Char) : Bool := c == '.' || c == '!' || c == '?'

/-- Model of `re.split(r"(?<=[\.!?])\s+", p)`: cut right after a `.`, `!`
or `?` that is followed by whitespace, consuming the whitespace run. -/
def sentSplitAux (cur : List Char) : List Char → List (List Char)
  | [] => [cur.reverse]
  | c :: rest =>
    if isTermPunct c && rest.head?.any isPyWS then
      (c :: cur).reverse :: sentSplitAux [] (rest.dropWhile isPyWS)
    else sentSplitAux (c :: cur) rest
  termination_by l => l.length
  decreasing_by
    · exact Nat.lt_succ_of_le ((List.dropWhile_sublist _).length_le)
    · simp

/-- Candidate sentence parts of one paragraph. -/
def sentSplitParts (s : List Char) : List (List Char) := sentSplitAux [] s

/-- One step of the sentence accumulation loop in `split_into_sentences`:
either merge the (stripped, nonempty) candidate `part` into the previous
sentence or append it as a new sentence tagged with
`seenPara && firstInPara`. -/
def sentStep (seenPara : Bool) (out : List (List Char × Bool))
    (firstInPara : Bool) (part : List Char) : List (List Char × Bool) :=
  match out.getLast? with
  | some prev =>
    if !firstInPara && endsWithAbbrev prev.1 && !startsLikeNewSentence part then
      out.dropLast ++ [(prev.1 ++ ' ' :: part, prev.2)]
    else out ++ [(part, seenPara && firstInPara)]
  | none => out ++ [(part, seenPara && firstInPara)]

/-- The inner loop of `split_into_sentences` over the candidate parts of
one paragraph. -/
def procParts (seenPara : Bool) (out : List (List Char × Bool))
    (firstInPara : Bool) : List (List Char) → List (List Char × Bool)
  | [] => out
  | part :: rest =>
    let p := pyStrip part
    if p.isEmpty then procParts seenPara out firstInPara rest
    else procParts seenPara (sentStep seenPara out firstInPara p) false rest

/-- The outer loop of `split_into_sentences` over paragraphs. -/
def goParas (seenPara : Bool) (out : List (List Char × Bool)) :
    List (List Char) → List (List Char × Bool)
  | [] => out
  | para :: rest =>
    let p := pyStrip para
    if p.isEmpty then goParas seenPara out rest
    else goParas true (procParts seenPara out true (sentSplitParts p)) rest

/-- Model of `tts.split_into_sentences`: paragraphs split on `"\n\n"`,
candidate sentences split after terminal punctuation, abbreviation-aware
merge-back, and paragraph-start tagging. -/
def split_into_sentences (text : List Char) : List (List Char × Bool) :=
  goParas false [] (splitDoubleNL text)

/-- Model of the input guard of `tts.generate_assets_from_story` (lines
282-285): clean the story text, split it into sentences, and fail before
any timing is computed when no sentence is found.  The external API-key
check and the synthesis calls that precede and follow it are I/O and are
outside the model. -/
def generateAssetsCheck (story : List Char) :
    Except (List Char) (List (List Char × Bool)) :=
  let cleaned := clean_text story
  let pieces := split_into_sentences cleaned
  if pieces.isEmpty then Except.error "No sentences found after cleaning text".data
  else Except.ok pieces

/-- Model of `captions_toolkit._phrase_chunk`'s loop state: `cur` is the
current line's words, `curLen` the running character count including the
single spaces between words. -/
def phraseChunkAux (maxCols : ℕ) :
    List (List Char) → ℕ → List (List Char) → List (List Char)
  | cur, _, [] => if cur.isEmpty then [] else [List.intercalate [' '] cur]
  | cur, curLen, w :: rest =>
    if cur.isEmpty then phraseChunkAux maxCols [w] w.length rest
    else if maxCols < curLen + 1 + w.length then
      List.intercalate [' '] cur :: phraseChunkAux maxCols [w] w.length rest
    else phraseChunkAux maxCols (cur ++ [w]) (curLen + 1 + w.length) rest

/-- Model of `captions_toolkit._phrase_chunk`: greedy word-wrapping into
single-line phrases capped by `maxCols` characters. -/
def phraseChunk (words : List (List Char)) (maxCols : ℕ) : List (List Char) :=
  phraseChunkAux maxCols [] 0 words

/-- Model of `tts._estimate_max_cols` with the resolution width already
parsed (`_parse_resolution` returns the `w` component).  `int()` on the
positive quotient is the floor. -/
def estimateMaxCols (w marginL marginR fontPx : ℤ) (cwf : ℚ) : ℤ :=
  let usable : ℤ := max 40 (w - marginL - marginR)
  let avgPx : ℚ := max 10 ((fontPx : ℚ) * max (35/100) (min (9/10) cwf))
  let cols : ℤ := ⌊(usable : ℚ) / avgPx⌋
  max 18 (min 120 cols)

/-- Modelled from the spec's words (§4.3): `max_columns =
floor(usable_width_px / avg_glyph_px)` with `usable_width_px` floored at
40px, `avg_glyph_px = font_size * clamp(factor, 0.35, 0.9)` floored at
10px, and the result clamped to `[18, 120]`. -/
def specMaxCols (w marginL marginR fontPx : ℤ) (cwf : ℚ) : ℤ :=
  let usable : ℤ := max (w - marginL - marginR) 40
  let clamped : ℚ := min (max cwf (35/100)) (9/10)
  let avgPx : ℚ := max ((fontPx : ℚ) * clamped) 10
  let cols : ℤ := ⌊(usable : ℚ) / avgPx⌋
  min (max cols 18) 120

/-- A timed caption event: text with start/end seconds
(`start_seconds` / `end_seconds` in the source). -/
structure TEvent where
  txt : List Char
  start : ℚ
  stop : ℚ
  deriving DecidableEq

/-- Model of `s.replace("\\N", " ")` (the two-character sequence
backslash-N becomes a space). -/
def replBackslashN : List Char → List Char
  | '\\' :: 'N' :: rest => ' ' :: replBackslashN rest
  | c :: rest => c :: replBackslashN rest
  | [] => []

/-- Segment weight, from line 351 of tts.py:
`max(len(s.replace("\\N", " ").strip()), 1)`. -/
def weightOf (s : List Char) : ℕ :=
  max (pyStrip (replBackslashN s)).length 1

/-- The raw (pre-lead/lag) segment boundaries of one sentence, from lines
354-358 and 375 of tts.py: every non-final segment ends at
`seg_start + dur * (w / total_w)`, the final segment ends at
`sentence_end`, and an end at or before its start is pushed to
`seg_start + min_event`. -/
def segBounds (minE dur totalW sentEnd : ℚ) :
    ℚ → List ℚ → List (ℚ × ℚ)
  | _, [] => []
  | segStart, w :: rest =>
    let segEnd0 := if rest.isEmpty then sentEnd else segStart + dur * (w / totalW)
    let segEnd := if segEnd0 ≤ segStart then segStart + minE else segEnd0
    (segStart, segEnd) :: segBounds minE dur totalW sentEnd segEnd rest

/-- Displaying one segment, from lines 360-374 of tts.py: apply the
cosmetic caption lead-in/lead-out, then clamp the start forward to the
previous event's end and, only if that makes `end <= start`, push the end
to `start + min_event`. -/
def pushEvent (minE cli clo : ℚ) (events : List TEvent)
    (txt : List Char) (segStart segEnd : ℚ) : List TEvent :=
  let start0 := max 0 (segStart - cli)
  let end0 := max (start0 + minE) (segEnd - clo)
  match events.getLast? with
  | some prev =>
    if start0 < prev.stop then
      events ++ [⟨txt, prev.stop, if end0 ≤ prev.stop then prev.stop + minE else end0⟩]
    else events ++ [⟨txt, start0, end0⟩]
  | none => events ++ [⟨txt, start0, end0⟩]

/-- The per-sentence event loop over the zipped segment texts and raw
boundaries. -/
def sentEvents (minE cli clo : ℚ) (events : List TEvent) :
    List (List Char × (ℚ × ℚ)) → List TEvent
  | [] => events
  | (txt, b) :: rest =>
    sentEvents minE cli clo (pushEvent minE cli clo events txt b.1 b.2) rest

/-- One sentence of the Duration Allocator: segment texts, measured
duration in seconds, and the already-computed gap (ms) appended after it. -/
structure Piece where
  segTexts : List (List Char)
  dur : ℚ
  gapAfterMs : ℤ
  deriving DecidableEq

/-- The outer event loop of `generate_assets_from_story` (lines 338-377):
per sentence, compute the weights and raw boundaries, display each
segment, and advance the cursor by the sentence duration plus its gap. -/
def buildEventsAux (cli clo : ℚ) : ℚ → List TEvent → List Piece → List TEvent
  | _, events, [] => events
  | t, events, p :: rest =>
    let sentStart := t
    let sentEnd := sentStart + p.dur
    let ws := p.segTexts.map (fun s => (weightOf s : ℚ))
    let totalW := ws.sum
    let bounds := segBounds (3/100) p.dur totalW sentEnd sentStart ws
    let events2 := sentEvents (3/100) cli clo events (p.segTexts.zip bounds)
    buildEventsAux cli clo (sentEnd + (p.gapAfterMs : ℚ) / 1000) events2 rest

/-- The Duration Allocator of `generate_assets_from_story` (lines 333-377):
the cursor starts at the clamped lead-in, the cosmetic leads are clamped
at 0 and converted to seconds, and `min_event = 0.03`. -/
def generateEvents (leadInMs cliMs cloMs : ℤ) (pieces : List Piece) :
    List TEvent :=
  let t0 : ℚ := max 0 ((max 0 leadInMs : ℤ) : ℚ) / 1000
  let cli : ℚ := ((max 0 cliMs : ℤ) : ℚ) / 1000
  let clo : ℚ := ((max 0 cloMs : ℤ) : ℚ) / 1000
  buildEventsAux cli clo t0 [] pieces

/-- The per-sentence gaps of lines 305-313 of tts.py: the last sentence
gets 0; otherwise the gap before a paragraph-starting next sentence is
raised to the paragraph gap. -/
def gapsAfter (g pg : ℤ) : List Bool → List ℤ
  | [] => []
  | [_] => [0]
  | _ :: b :: rest => (if b then max g pg else g) :: gapsAfter g pg (b :: rest)

/-- The successive sentence start times (the cursor `t` values of lines
339-377). -/
def startsAux : ℚ → List (ℚ × ℤ) → List ℚ
  | _, [] => []
  | t, (d, gp) :: rest => t :: startsAux (t + d + (gp : ℚ) / 1000) rest

/-- The Duration Allocator's per-sentence start times for given lead-in,
inter-sentence gap and paragraph gap (ms), paragraph flags and per-sentence
durations, from lines 301-313 and 333-377 of tts.py (`gap_ms` is clamped at
0 and `paragraph_gap_ms` at `gap_ms` first). -/
def sentenceStarts (leadInMs gapMs pgapMs : ℤ) (flags : List Bool)
    (durs : List ℚ) : List ℚ :=
  let li : ℤ := max 0 leadInMs
  let g : ℤ := max 0 gapMs
  let pg : ℤ := max g pgapMs
  startsAux (max 0 ((li : ℚ) / 1000)) (durs.zip (gapsAfter g pg flags))

/-- The numeric content of `format_ts` (tts.py lines 104-108): hours,
minutes, seconds and centiseconds of the clamped time.  Python's
`int(round(x))` is modelled by Mathlib's `round` (they differ only on
exact half-centisecond boundaries, where Python rounds half to even). -/
def formatTsParts (sec : ℚ) : ℕ × ℕ × ℕ × ℕ :=
  let s0 : ℚ := max 0 sec
  let h : ℕ := (⌊s0 / 3600⌋).toNat
  let m : ℕ := (⌊(s0 - 3600 * ⌊s0 / 3600⌋) / 60⌋).toNat
  let s : ℕ := (⌊s0 - 60 * ⌊s0 / 60⌋⌋).toNat
  let cs : ℕ := (round ((s0 - ⌊s0⌋) * 100)).toNat
  (h, m, s, cs)

/-- The numeric content of `ass_to_ms` (tts.py lines 110-116) applied to a
well-formed `format_ts` output `h:mm:ss.cc`. -/
def assToMsParts (p : ℕ × ℕ × ℕ × ℕ) : ℕ :=
  (p.1 * 3600 + p.2.1 * 60 + p.2.2.1) * 1000 + p.2.2.2 * 10

/-- The SRT block times of tts.py lines 393-396: each event's start/end
seconds are formatted to ASS timestamps, parsed back to milliseconds, and
the end is floored at `start + 10` ms. -/
def srtTimes (events : List (ℚ × ℚ)) : List (ℕ × ℕ) :=
  events.map (fun ev =>
    let a := assToMsParts (formatTsParts ev.1)
    let b := assToMsParts (formatTsParts ev.2)
    (a, max b (a + 10)))

/-- Invariant predicate for the normalizer proofs: none of the characters
rewritten away by `clean_text` (`\r`, `\t`, `\f`, `\v`) occurs in `s`. -/
def NoBad (s : List Char) : Prop :=
  ∀ c ∈ s, c ≠ '\r' ∧ c ≠ '\t' ∧ c ≠ '\x0c' ∧ c ≠ '\x0b'

instance NoBad_dec (s : List Char) : Decidable (NoBad s) :=
  List.decidableBAll _ s

/-- Invariant relation for adjacent characters of normalized text: no two
adjacent spaces and no space adjacent to a newline. -/
def spOK (a b : Char) : Prop :=
  ¬(a = ' ' ∧ b = ' ') ∧ ¬(a = ' ' ∧ b = '\n') ∧ ¬(a = '\n' ∧ b = ' ')

/-- Whether the text contains three consecutive newlines (the pattern the
`\n{3,}` rewrite of `clean_text` eliminates). -/
def hasTriple : List Char → Bool
  | c1 :: c2 :: c3 :: rest =>
      (c1 == '\n' && c2 == '\n' && c3 == '\n') || hasTriple (c2 :: c3 :: rest)
  | _ => false

/-- The fixed-point invariant of `clean_text`: no rewritten characters, no
double spaces or spaces around newlines, no triple newline, and
whitespace-free ends. -/
def CleanInv (s : List Char) : Prop :=
  NoBad s ∧ List.Chain' spOK s ∧ hasTriple s = false ∧
    (∀ c ∈ s.head?, isPyWS c = false) ∧ (∀ c ∈ s.getLast?, isPyWS c = false)

/-! ## Strip algebra -/

theorem dropWhile_dropWhile {p q : Char → Bool}
    (hpq : ∀ c, q c = true → p c = true) :
    ∀ l : List Char, (l.dropWhile q).dropWhile p = l.dropWhile p
  | [] => rfl
  | c :: t => by
    by_cases h : q c = true
    · rw [List.dropWhile_cons_of_pos h, List.dropWhile_cons_of_pos (hpq c h),
        dropWhile_dropWhile hpq t]
    · rw [List.dropWhile_cons_of_neg (by simpa using h)]

theorem dropEnd_eq_nil_iff {p : Char → Bool} {l : List Char} :
    dropEnd p l = [] ↔ ∀ x ∈ l, p x := List.rdropWhile_eq_nil_iff

theorem dropEnd_append {p : Char → Bool} {u v : List Char}
    (hv : dropEnd p v ≠ []) : dropEnd p (u ++ v) = u ++ dropEnd p v := by
  unfold dropEnd List.rdropWhile at hv ⊢
  rw [List.reverse_append, List.dropWhile_append]
  have hne : ¬ (v.reverse.dropWhile p).isEmpty = true := by
    intro h
    exact hv (by rw [List.isEmpty_iff.1 h]; rfl)
  rw [if_neg hne, List.reverse_append, List.reverse_reverse]

theorem dropEnd_cons_all {p : Char → Bool} {t : List Char} (c : Char)
    (hall : ∀ x ∈ t, p x = true) :
    dropEnd p (c :: t) = if p c then [] else [c] := by
  unfold dropEnd List.rdropWhile
  have : (c :: t).reverse = t.reverse ++ [c] := by simp
  rw [this, List.dropWhile_append_of_pos (by simpa using hall)]
  by_cases hc : p c = true
  · simp [hc, List.dropWhile_cons_of_pos hc]
  · simp only [hc, if_false]
    rw [List.dropWhile_cons_of_neg (by simpa using hc)]
    rfl

theorem dropEnd_cons_of_ne {p : Char → Bool} {t : List Char} (c : Char)
    (ht : dropEnd p t ≠ []) : dropEnd p (c :: t) = c :: dropEnd p t := by
  simpa using dropEnd_append (u := [c]) ht

theorem dropEnd_cons_of_neg {p : Char → Bool} {t : List Char} (c : Char)
    (hc : p c = false) : dropEnd p (c :: t) = c :: dropEnd p t := by
  by_cases ht : dropEnd p t = []
  · rw [dropEnd_cons_all c (dropEnd_eq_nil_iff.1 ht), ht]
    simp [hc]
  · exact dropEnd_cons_of_ne c ht

theorem dropEnd_dropEnd {p q : Char → Bool}
    (hpq : ∀ c, q c = true → p c = true) (l : List Char) :
    dropEnd p (dropEnd q l) = dropEnd p l := by
  unfold dropEnd List.rdropWhile
  rw [List.reverse_reverse, dropWhile_dropWhile hpq]

theorem dropWhile_dropEnd_comm (p q : Char → Bool) :
    ∀ l : List Char, (dropEnd q l).dropWhile p = dropEnd q (l.dropWhile p)
  | [] => rfl
  | c :: t => by
    by_cases hp : p c = true
    · rw [List.dropWhile_cons_of_pos hp]
      by_cases hqt : dropEnd q t = []
      · have hall : ∀ x ∈ t, q x = true := dropEnd_eq_nil_iff.1 hqt
        have hrhs : dropEnd q (t.dropWhile p) = [] :=
          dropEnd_eq_nil_iff.2 (fun x hx => hall x (List.dropWhile_subset p hx))
        rw [hrhs, dropEnd_cons_all c hall]
        by_cases hqc : q c = true
        · simp [hqc]
        · simp [hqc, List.dropWhile_cons_of_pos hp]
      · rw [dropEnd_cons_of_ne c hqt, List.dropWhile_cons_of_pos hp]
        exact dropWhile_dropEnd_comm p q t
    · rw [List.dropWhile_cons_of_neg (by simpa using hp)]
      by_cases hqt : dropEnd q t = []
      · have hall : ∀ x ∈ t, q x = true := dropEnd_eq_nil_iff.1 hqt
        rw [dropEnd_cons_all c hall]
        by_cases hqc : q c = true
        · simp [hqc]
        · simp [hqc, hp]
      · rw [dropEnd_cons_of_ne c hqt]
        exact List.dropWhile_cons_of_neg (by simpa using hp)

theorem head?_dropWhile {p : Char → Bool} {l : List Char} {c : Char}
    (h : (l.dropWhile p).head? = some c) : p c = false := by
  have := List.head?_dropWhile_not p l
  rw [h] at this
  exact this

theorem dropWhile_eq_self_of_head {p : Char → Bool} {l : List Char}
    (h : ∀ c, l.head? = some c → p c = false) : l.dropWhile p = l := by
  cases l with
  | nil => rfl
  | cons c t =>
    rw [List.dropWhile_cons_of_neg]
    simpa using h c rfl

theorem dropEnd_eq_self_of_last {p : Char → Bool} {l : List Char}
    (h : ∀ c, l.getLast? = some c → p c = false) : dropEnd p l = l := by
  unfold dropEnd List.rdropWhile
  rw [dropWhile_eq_self_of_head (by simpa using h), List.reverse_reverse]

theorem getLast?_dropWhile_of_ne {p : Char → Bool} {l : List Char}
    (h : l.dropWhile p ≠ []) : (l.dropWhile p).getLast? = l.getLast? := by
  conv_rhs => rw [← List.takeWhile_append_dropWhile (p := p) (l := l)]
  rw [List.getLast?_append]
  cases hl : (l.dropWhile p).getLast? with
  | none => exact absurd (List.getLast?_eq_none_iff.1 hl) h
  | some c => rfl

theorem head?_dropEnd_of_ne {p : Char → Bool} {l : List Char}
    (h : dropEnd p l ≠ []) : (dropEnd p l).head? = l.head? := by
  unfold dropEnd List.rdropWhile at h ⊢
  have hne : l.reverse.dropWhile p ≠ [] := by
    intro hcontra
    exact h (by rw [hcontra]; rfl)
  rw [← List.getLast?_reverse l, ← getLast?_dropWhile_of_ne hne,
    ← List.getLast?_reverse]
  rw [List.reverse_reverse]

theorem getLast?_dropEnd {p : Char → Bool} {l : List Char} {c : Char}
    (h : (dropEnd p l).getLast? = some c) : p c = false := by
  unfold dropEnd List.rdropWhile at h
  rw [List.getLast?_reverse] at h
  exact head?_dropWhile h

theorem pyStrip_head {l : List Char} {c : Char}
    (h : (pyStrip l).head? = some c) : isPyWS c = false := by
  unfold pyStrip at h
  by_cases hne : dropEnd isPyWS (l.dropWhile isPyWS) = []
  · rw [hne] at h
    cases h
  · rw [head?_dropEnd_of_ne hne] at h
    exact head?_dropWhile h

theorem pyStrip_last {l : List Char} {c : Char}
    (h : (pyStrip l).getLast? = some c) : isPyWS c = false :=
  getLast?_dropEnd h

theorem pyStrip_eq_self {l : List Char}
    (hh : ∀ c, l.head? = some c → isPyWS c = false)
    (hl : ∀ c, l.getLast? = some c → isPyWS c = false) : pyStrip l = l := by
  unfold pyStrip
  rw [dropWhile_eq_self_of_head hh, dropEnd_eq_self_of_last hl]

theorem pyStrip_idem (l : List Char) : pyStrip (pyStrip l) = pyStrip l :=
  pyStrip_eq_self (fun _ h => pyStrip_head h) (fun _ h => pyStrip_last h)

theorem pyStrip_eq_nil_of_all {l : List Char}
    (h : ∀ c ∈ l, isPyWS c = true) : pyStrip l = [] := by
  unfold pyStrip
  rw [List.dropWhile_eq_nil_iff.2 (by simpa using h)]
  rfl

theorem mem_pyStrip {l : List Char} {c : Char} (h : c ∈ pyStrip l) : c ∈ l := by
  unfold pyStrip dropEnd List.rdropWhile at h
  rw [List.mem_reverse] at h
  exact List.dropWhile_subset _ (by
    simpa using (List.dropWhile_subset (l := (l.dropWhile isPyWS).reverse) isPyWS h))

theorem dropWhile_congr_mem {p q : Char → Bool} :
    ∀ {l : List Char}, (∀ c ∈ l, p c = q c) → l.dropWhile p = l.dropWhile q
  | [], _ => rfl
  | c :: t, h => by
    have hc := h c (List.mem_cons_self c t)
    by_cases hp : p c = true
    · rw [List.dropWhile_cons_of_pos hp, List.dropWhile_cons_of_pos (by rw [← hc]; exact hp)]
      exact dropWhile_congr_mem (fun x hx => h x (List.mem_cons_of_mem c hx))
    · rw [List.dropWhile_cons_of_neg (by simpa using hp),
        List.dropWhile_cons_of_neg (by simp [← hc]; simpa using hp)]

theorem dropEnd_congr_mem {p q : Char → Bool} {l : List Char}
    (h : ∀ c ∈ l, p c = q c) : dropEnd p l = dropEnd q l := by
  unfold dropEnd List.rdropWhile
  rw [dropWhile_congr_mem (fun c hc => h c (List.mem_reverse.1 hc))]

theorem intercalate_one (sep : List Char) (a : List Char) :
    List.intercalate sep [a] = a := by
  simp [List.intercalate]

theorem intercalate_two (sep a b : List Char) (t : List (List Char)) :
    List.intercalate sep (a :: b :: t)
      = a ++ sep ++ List.intercalate sep (b :: t) := by
  simp [List.intercalate, List.intersperse_cons_cons, List.append_assoc]

/-! ## Lemmas about line splitting -/

theorem exists_nl_split :
    ∀ {s : List Char}, '\n' ∈ s → ∃ a b, s = a ++ '\n' :: b ∧ '\n' ∉ a
  | c :: rest, h => by
    by_cases hc : c = '\n'
    · exact ⟨[], rest, by rw [hc]; rfl, by simp⟩
    · have hrest : '\n' ∈ rest := by
        rcases List.mem_cons.1 h with h1 | h2
        · exact absurd h1.symm hc
        · exact h2
      obtain ⟨a, b, hab, hna⟩ := exists_nl_split hrest
      exact ⟨c :: a, b, by rw [List.cons_append, hab], by
        simp only [List.mem_cons, not_or]
        exact ⟨fun hx => hc hx.symm, hna⟩⟩

theorem splitNL_cons_ne {c : Char} (rest : List Char) (hc : ¬ c = '\n') :
    splitNL (c :: rest) = (splitNL rest).modifyHead (c :: ·) := by
  simp [splitNL, hc]

theorem splitNL_shape : ∀ s : List Char, ∃ a t, splitNL s = a :: t
  | [] => ⟨[], [], rfl⟩
  | c :: rest => by
    by_cases hc : c = '\n'
    · subst hc
      exact ⟨[], splitNL rest, by simp [splitNL]⟩
    · obtain ⟨a, t, ih⟩ := splitNL_shape rest
      exact ⟨c :: a, t, by rw [splitNL_cons_ne rest hc, ih]; rfl⟩

theorem splitNL_of_no_nl : ∀ {s : List Char}, '\n' ∉ s → splitNL s = [s]
  | [], _ => rfl
  | c :: rest, h => by
    have hc : ¬ c = '\n' := fun hx => h (by rw [hx]; exact List.mem_cons_self _ _)
    have hrest : '\n' ∉ rest := fun hx => h (List.mem_cons_of_mem c hx)
    rw [splitNL_cons_ne rest hc, splitNL_of_no_nl hrest]
    rfl

theorem splitNL_append :
    ∀ {a : List Char} (b : List Char), '\n' ∉ a →
      splitNL (a ++ '\n' :: b) = a :: splitNL b
  | [], b, _ => by simp [splitNL]
  | c :: a', b, h => by
    have hc : ¬ c = '\n' := fun hx => h (by rw [hx]; exact List.mem_cons_self _ _)
    have ha' : '\n' ∉ a' := fun hx => h (List.mem_cons_of_mem c hx)
    rw [List.cons_append, splitNL_cons_ne _ hc, splitNL_append b ha']
    rfl

theorem chain'_split_cons {R : Char → Char → Prop} {a b : List Char} {x : Char}
    (h : List.Chain' R (a ++ x :: b)) :
    List.Chain' R a ∧ List.Chain' R b ∧
      (∀ c ∈ a.getLast?, R c x) ∧ (∀ c ∈ b.head?, R x c) := by
  rcases List.chain'_append.1 h with ⟨h1, h2, h3⟩
  rcases List.chain'_cons'.1 h2 with ⟨h4, h5⟩
  exact ⟨h1, h5, fun c hc => h3 c hc x rfl, h4⟩

theorem dropWhile_append_cons {p : Char → Bool} {x : Char}
    (hx : p x = false) :
    ∀ (u v : List Char), (u ++ x :: v).dropWhile p = u.dropWhile p ++ x :: v
  | [], v => by
    rw [List.nil_append, List.dropWhile_cons_of_neg (by simp [hx])]
    rfl
  | c :: u', v => by
    by_cases hc : p c = true
    · rw [List.cons_append, List.dropWhile_cons_of_pos hc,
        List.dropWhile_cons_of_pos hc, dropWhile_append_cons hx u' v]
    · rw [List.cons_append, List.dropWhile_cons_of_neg (by simpa using hc),
        List.dropWhile_cons_of_neg (by simpa using hc)]
      rfl

/-- The body of the final line pass of `clean_text` (split on newlines,
strip every line, re-join, before the final overall strip) equals
stripping spaces from the two ends of the whole string, provided the text
has no double spaces, no spaces adjacent to newlines, and none of the
rewritten characters. -/
theorem lineStage_eq (s : List Char) (hch : List.Chain' spOK s)
    (hbad : NoBad s) :
    List.intercalate ['\n'] ((splitNL s).map pyStrip)
      = dropEnd (fun c => c == ' ') (s.dropWhile (fun c => c == ' ')) := by
  by_cases hn : '\n' ∈ s
  · obtain ⟨a, b, rfl, hna⟩ := exists_nl_split hn
    obtain ⟨hca, hcb, hlast, hhead⟩ := chain'_split_cons hch
    have hbada : NoBad a := fun c hc => hbad c (by simp [hc])
    have hbadb : NoBad b := fun c hc => hbad c (by simp [hc])
    have IH := lineStage_eq b hcb hbadb
    -- identify the whitespace of `a` with spaces
    have hwsa : ∀ c ∈ a, isPyWS c = (c == ' ') := by
      intro c hc
      rcases hbada c hc with ⟨h1, h2, h3, h4⟩
      have h5 : c ≠ '\n' := fun hx => hna (hx ▸ hc)
      simp only [isPyWS]
      by_cases h : c = ' '
      · subst h; decide
      · rw [beq_eq_false_iff_ne.2 h, beq_eq_false_iff_ne.2 h2,
          beq_eq_false_iff_ne.2 h5, beq_eq_false_iff_ne.2 h1,
          beq_eq_false_iff_ne.2 h3, beq_eq_false_iff_ne.2 h4]
        rfl
    -- the last character of `a` is not a space, so stripping `a` only
    -- strips from the front
    have hlasta : ∀ c, a.getLast? = some c → isPyWS c = false := by
      intro c hc
      rcases hbada c (List.mem_of_getLast?_eq_some hc) with ⟨h1, h2, h3, h4⟩
      have h5 : c ≠ '\n' := fun hx => hna (hx ▸ List.mem_of_getLast?_eq_some hc)
      have h6 : c ≠ ' ' := by
        have := hlast c hc
        intro hx
        exact this.2.1 ⟨hx, rfl⟩
      simp [isPyWS, h1, h2, h3, h4, h5, h6]
    have hstripa : pyStrip a = a.dropWhile (fun c => c == ' ') := by
      unfold pyStrip
      rw [dropWhile_congr_mem hwsa]
      apply dropEnd_eq_self_of_last
      intro c hc
      by_cases hne : a.dropWhile (fun c => c == ' ') = []
      · rw [hne] at hc; cases hc
      · rw [getLast?_dropWhile_of_ne hne] at hc
        exact hlasta c hc
    -- the head of `b` is not a space
    have hheadb : b.dropWhile (fun c => c == ' ') = b := by
      apply dropWhile_eq_self_of_head
      intro c hc
      have h6 : c ≠ ' ' := by
        have := hhead c hc
        intro hx
        exact this.2.2 ⟨rfl, hx⟩
      simpa using h6
    -- assemble
    obtain ⟨l0, t0, hsh⟩ := splitNL_shape b
    have hsp : (('\n' : Char) == ' ') = false := by decide
    have h1 : dropEnd (fun c => c == ' ') ('\n' :: b)
        = '\n' :: dropEnd (fun c => c == ' ') b :=
      dropEnd_cons_of_neg '\n' hsp
    rw [splitNL_append b hna, List.map_cons, hsh, List.map_cons,
      intercalate_two, ← List.map_cons, ← hsh, IH,
      dropWhile_append_cons (x := '\n') hsp a b,
      dropEnd_append (v := '\n' :: b) (by rw [h1]; simp), h1,
      hstripa, hheadb]
    rw [List.append_assoc, List.singleton_append]
  · rw [splitNL_of_no_nl hn, List.map_cons, List.map_nil, intercalate_one]
    have hws : ∀ c ∈ s, isPyWS c = (c == ' ') := by
      intro c hc
      rcases hbad c hc with ⟨h1, h2, h3, h4⟩
      have h5 : c ≠ '\n' := fun hx => hn (hx ▸ hc)
      simp only [isPyWS]
      by_cases h : c = ' '
      · subst h; decide
      · rw [beq_eq_false_iff_ne.2 h, beq_eq_false_iff_ne.2 h2,
          beq_eq_false_iff_ne.2 h5, beq_eq_false_iff_ne.2 h1,
          beq_eq_false_iff_ne.2 h3, beq_eq_false_iff_ne.2 h4]
        rfl
    unfold pyStrip
    rw [dropWhile_congr_mem hws]
    apply dropEnd_congr_mem
    intro c hc
    exact hws c (List.dropWhile_subset _ hc)
termination_by s.length
decreasing_by
  simp_wf
  subst_vars
  simp only [List.length_append, List.length_cons]
  omega

/-! ## Helper facts about the character classes -/

theorem eq_space_of_isHWS {c : Char} (h : isHWS c = true) (h2 : c ≠ '\t')
    (h3 : c ≠ '\x0c') (h4 : c ≠ '\x0b') : c = ' ' := by
  simp only [isHWS, Bool.or_eq_true, beq_iff_eq] at h
  rcases h with ((h | h) | h) | h
  · exact h
  · exact absurd h h2
  · exact absurd h h3
  · exact absurd h h4

theorem isHWS_false_of {c : Char} (h : c ≠ ' ') (h2 : c ≠ '\t')
    (h3 : c ≠ '\x0c') (h4 : c ≠ '\x0b') : isHWS c = false := by
  simp only [isHWS]
  rw [beq_eq_false_iff_ne.2 h, beq_eq_false_iff_ne.2 h2,
    beq_eq_false_iff_ne.2 h3, beq_eq_false_iff_ne.2 h4]
  rfl

theorem space_of_isHWS_nobad {s : List Char} (hbad : NoBad s) {c : Char}
    (hc : c ∈ s) (h : isHWS c = true) : c = ' ' := by
  rcases hbad c hc with ⟨_, h2, h3, h4⟩
  exact eq_space_of_isHWS h h2 h3 h4

theorem chain'_dropWhile {R : Char → Char → Prop} {l : List Char}
    (h : List.Chain' R l) (q : Char → Bool) :
    List.Chain' R (l.dropWhile q) := by
  have hd : l.takeWhile q ++ l.dropWhile q = l :=
    List.takeWhile_append_dropWhile q l
  rw [← hd] at h
  exact (List.chain'_append.1 h).2.1

theorem noBad_dropWhile {l : List Char} (h : NoBad l) (q : Char → Bool) :
    NoBad (l.dropWhile q) :=
  fun c hc => h c (List.dropWhile_subset q hc)

/-! ## Identity of the rewriting passes on fixed points -/

theorem dropWhile_hws_of_pair {c : Char} {rest : List Char}
    (hbad : NoBad (c :: rest)) (hch : List.Chain' spOK (c :: rest))
    (hcsp : c = ' ' ∨ c = '\n') : rest.dropWhile isHWS = rest := by
  apply dropWhile_eq_self_of_head
  intro d hd
  cases rest with
  | nil => simp at hd
  | cons e t =>
    simp only [List.head?_cons, Option.some.injEq] at hd
    subst hd
    have hpair : spOK c e := (List.chain'_cons'.1 hch).1 e rfl
    rcases hbad e (by simp) with ⟨_, h2, h3, h4⟩
    refine isHWS_false_of ?_ h2 h3 h4
    intro hx
    rcases hcsp with hc | hc
    · exact hpair.1 ⟨hc, hx⟩
    · exact hpair.2.2 ⟨hc, hx⟩

theorem replCRLF_id : ∀ (s : List Char), '\r' ∉ s → replCRLF s = s := by
  intro s
  induction s using replCRLF.induct with
  | case1 rest ih =>
    intro h
    exact absurd (List.mem_cons_self _ _) h
  | case2 c rest hne ih =>
    intro h
    have hc : ¬ c = '\r' := fun hx => h (by rw [hx]; exact List.mem_cons_self _ _)
    have hr : '\r' ∉ rest := fun hx => h (List.mem_cons_of_mem c hx)
    simp [replCRLF, hc, ih hr]
  | case3 => intro _; rfl

theorem replCR_id {s : List Char} (hs : '\r' ∉ s) : replCR s = s := by
  unfold replCR
  induction s with
  | nil => rfl
  | cons c t ih =>
    have hc : ¬ c = '\r' := fun hx => hs (by rw [hx]; exact List.mem_cons_self _ _)
    rw [List.map_cons, if_neg hc, ih (fun hx => hs (List.mem_cons_of_mem c hx))]

theorem replCR_no_cr (s : List Char) : '\r' ∉ replCR s := by
  intro h
  obtain ⟨c, _, he⟩ := List.mem_map.1 h
  by_cases h1 : c = '\r'
  · rw [if_pos h1] at he
    exact absurd he (by decide)
  · rw [if_neg h1] at he
    exact h1 he

theorem collapseRuns_id {p : Char → Bool} {r : Char} :
    ∀ (s : List Char), (∀ c ∈ s, p c = false) → collapseRuns p r s = s := by
  intro s
  induction s using collapseRuns.induct p r with
  | case1 => intro _; simp [collapseRuns]
  | case2 c rest hp ih =>
    intro h
    exact absurd (h c (List.mem_cons_self c rest)) (by simp [hp])
  | case3 c rest hp ih =>
    intro h
    rw [collapseRuns, if_neg (by simpa using hp),
      ih (fun x hx => h x (List.mem_cons_of_mem c hx))]

theorem collapseHWS_id : ∀ (s : List Char), NoBad s → List.Chain' spOK s →
    collapseHWS s = s := by
  intro s
  unfold collapseHWS
  induction s using collapseRuns.induct isHWS ' ' with
  | case1 => intro _ _; simp [collapseRuns]
  | case2 c rest hp ih =>
    intro hbad hch
    have hc : c = ' ' := space_of_isHWS_nobad hbad (List.mem_cons_self c rest) hp
    have hdw : rest.dropWhile isHWS = rest :=
      dropWhile_hws_of_pair hbad hch (Or.inl hc)
    have ih2 := ih (by rw [hdw]; exact fun x hx => hbad x (List.mem_cons_of_mem c hx))
      (by rw [hdw]; exact (List.chain'_cons'.1 hch).2)
    rw [hdw] at ih2
    rw [collapseRuns, if_pos hp, hdw, hc, ih2]
  | case3 c rest hp ih =>
    intro hbad hch
    rw [collapseRuns, if_neg (by simpa using hp),
      ih (fun x hx => hbad x (List.mem_cons_of_mem c hx))
        (List.chain'_cons'.1 hch).2]

theorem trimNL_id : ∀ (s : List Char), NoBad s → List.Chain' spOK s →
    trimNL s = s := by
  intro s
  induction s using trimNL.induct with
  | case1 => intro _ _; simp [trimNL]
  | case2 rest ih =>
    intro hbad hch
    have hdw : rest.dropWhile isHWS = rest :=
      dropWhile_hws_of_pair hbad hch (Or.inr rfl)
    have ih2 := ih (by rw [hdw]; exact fun x hx => hbad x (List.mem_cons_of_mem _ hx))
      (by rw [hdw]; exact (List.chain'_cons'.1 hch).2)
    rw [hdw] at ih2
    rw [trimNL, if_pos rfl, hdw, ih2]
  | case3 c rest hc hw hh ih =>
    intro hbad hch
    have hsp : c = ' ' := space_of_isHWS_nobad hbad (List.mem_cons_self c rest) hw
    have hdw : rest.dropWhile isHWS = rest :=
      dropWhile_hws_of_pair hbad hch (Or.inl hsp)
    rw [hdw] at hh
    cases rest with
    | nil => cases hh
    | cons e t =>
      simp only [List.head?_cons, Option.some.injEq] at hh
      have hpair : spOK c e := (List.chain'_cons'.1 hch).1 e rfl
      exact absurd ⟨hsp, hh⟩ hpair.2.1
  | case4 c rest hc hw hh ih =>
    intro hbad hch
    have hsp : c = ' ' := space_of_isHWS_nobad hbad (List.mem_cons_self c rest) hw
    have hdw : rest.dropWhile isHWS = rest :=
      dropWhile_hws_of_pair hbad hch (Or.inl hsp)
    have htw : rest.takeWhile isHWS = [] := by
      cases rest with
      | nil => rfl
      | cons e t =>
        refine List.takeWhile_cons_of_neg ?_
        intro hise
        have h1 : (e :: t).dropWhile isHWS = e :: t := hdw
        rw [List.dropWhile_cons_of_pos hise] at h1
        have := congrArg List.length h1
        have hle := (List.dropWhile_sublist isHWS (l := t)).length_le
        simp at this
        omega
    have ih2 := ih (by rw [hdw]; exact fun x hx => hbad x (List.mem_cons_of_mem _ hx))
      (by rw [hdw]; exact (List.chain'_cons'.1 hch).2)
    rw [hdw] at ih2
    rw [hdw] at hh
    rw [trimNL, if_neg hc, if_pos hw, hdw, if_neg hh, htw, ih2]
    rfl
  | case5 c rest hc hw ih =>
    intro hbad hch
    rw [trimNL, if_neg hc, if_neg hw,
      ih (fun x hx => hbad x (List.mem_cons_of_mem _ hx))
        (List.chain'_cons'.1 hch).2]

theorem hasTriple_tail {c : Char} {rest : List Char}
    (h : hasTriple (c :: rest) = false) : hasTriple rest = false := by
  cases rest with
  | nil => rfl
  | cons d t =>
    cases t with
    | nil => rfl
    | cons e t2 =>
      simp only [hasTriple, Bool.or_eq_false_iff] at h
      exact h.2

theorem collapseNL3_id : ∀ (s : List Char), hasTriple s = false →
    collapseNL3 s = s := by
  intro s
  induction s using collapseNL3.induct with
  | case1 rest ih =>
    intro h
    simp [hasTriple] at h
  | case2 c rest hne ih =>
    intro h
    rw [collapseNL3.eq_2 c rest hne, ih (hasTriple_tail h)]
  | case3 => intro _; simp [collapseNL3]

/-! ## Establishment of the fixed-point invariant by the passes -/

theorem spOK_of_left {x y : Char} (h1 : x ≠ ' ') (h2 : x ≠ '\n') : spOK x y :=
  ⟨fun h => h1 h.1, fun h => h1 h.1, fun h => h2 h.1⟩

theorem spOK_nl_left {y : Char} (h1 : y ≠ ' ') : spOK '\n' y :=
  ⟨fun h => absurd h.1 (by decide), fun h => absurd h.1 (by decide),
   fun h => h1 h.2⟩

theorem spOK_sp_left {y : Char} (h1 : y ≠ ' ') (h2 : y ≠ '\n') : spOK ' ' y :=
  ⟨fun h => h1 h.2, fun h => h2 h.2, fun h => absurd h.1 (by decide)⟩

theorem replCRLF_subset : ∀ (s : List Char), ∀ c ∈ replCRLF s, c ∈ s := by
  intro s
  induction s using replCRLF.induct with
  | case1 rest ih =>
    intro c hc
    simp only [replCRLF] at hc
    rcases List.mem_cons.1 hc with h | h
    · simp [h]
    · exact List.mem_cons_of_mem _ (List.mem_cons_of_mem _ (ih c h))
  | case2 d rest hne ih =>
    intro c hc
    rw [replCRLF.eq_2 d rest hne] at hc
    rcases List.mem_cons.1 hc with h | h
    · simp [h]
    · exact List.mem_cons_of_mem _ (ih c h)
  | case3 => intro c hc; cases hc

theorem replCR_mem {s : List Char} {c : Char} (h : c ∈ replCR s) :
    c ∈ s ∨ c = '\n' := by
  obtain ⟨d, hd, he⟩ := List.mem_map.1 h
  by_cases h1 : d = '\r'
  · rw [if_pos h1] at he
    exact Or.inr he.symm
  · rw [if_neg h1] at he
    exact Or.inl (he ▸ hd)

theorem collapseRuns_mem {p : Char → Bool} {r : Char} :
    ∀ {s : List Char} (c : Char), c ∈ collapseRuns p r s →
      c = r ∨ (c ∈ s ∧ p c = false) := by
  intro s
  induction s using collapseRuns.induct p r with
  | case1 => intro c hc; simp [collapseRuns] at hc
  | case2 d rest hp ih =>
    intro c hc
    rw [collapseRuns, if_pos hp] at hc
    rcases List.mem_cons.1 hc with h | h
    · exact Or.inl h
    · rcases ih c h with h2 | h2
      · exact Or.inl h2
      · exact Or.inr ⟨List.mem_cons_of_mem d (List.dropWhile_subset p h2.1), h2.2⟩
  | case3 d rest hp ih =>
    intro c hc
    rw [collapseRuns, if_neg (by simpa using hp)] at hc
    rcases List.mem_cons.1 hc with h | h
    · exact Or.inr ⟨by simp [h], by rw [h]; simpa using hp⟩
    · rcases ih c h with h2 | h2
      · exact Or.inl h2
      · exact Or.inr ⟨List.mem_cons_of_mem d h2.1, h2.2⟩

theorem collapseRuns_head {p : Char → Bool} {r : Char} {s : List Char} {c : Char}
    (hc : (collapseRuns p r s).head? = some c) :
    (c = r ∧ ∃ d, s.head? = some d ∧ p d = true) ∨
      (s.head? = some c ∧ p c = false) := by
  cases s with
  | nil => simp [collapseRuns] at hc
  | cons d t =>
    by_cases hp : p d = true
    · rw [collapseRuns, if_pos hp, List.head?_cons, Option.some.injEq] at hc
      exact Or.inl ⟨hc.symm, d, rfl, hp⟩
    · rw [collapseRuns, if_neg hp] at hc
      simp only [List.head?_cons, Option.some.injEq] at hc
      subst hc
      exact Or.inr ⟨rfl, by simpa using hp⟩

theorem collapseRuns_chain {p : Char → Bool} {r : Char} :
    ∀ (s : List Char),
      List.Chain' (fun a b => p a = false ∨ p b = false) (collapseRuns p r s) := by
  intro s
  induction s using collapseRuns.induct p r with
  | case1 => simp [collapseRuns]
  | case2 d rest hp ih =>
    rw [collapseRuns, if_pos hp]
    refine List.chain'_cons'.2 ⟨?_, ih⟩
    intro y hy
    rcases collapseRuns_head hy with ⟨_, e, he, hpe⟩ | ⟨_, hpy⟩
    · rw [head?_dropWhile he] at hpe
      exact absurd hpe (by decide)
    · exact Or.inr hpy
  | case3 d rest hp ih =>
    rw [collapseRuns, if_neg hp]
    refine List.chain'_cons'.2 ⟨?_, ih⟩
    intro y hy
    exact Or.inl (by simpa using hp)

theorem trimNL_mem : ∀ (s : List Char), ∀ c ∈ trimNL s, c ∈ s := by
  intro s
  induction s using trimNL.induct with
  | case1 => intro c hc; simp [trimNL] at hc
  | case2 rest ih =>
    intro c hc
    rw [trimNL, if_pos rfl] at hc
    rcases List.mem_cons.1 hc with h | h
    · simp [h]
    · exact List.mem_cons_of_mem _ (List.dropWhile_subset _ (ih c h))
  | case3 d rest hd hw hh ih =>
    intro c hc
    rw [trimNL, if_neg hd, if_pos hw, if_pos hh] at hc
    exact List.mem_cons_of_mem _ (List.dropWhile_subset _ (ih c hc))
  | case4 d rest hd hw hh ih =>
    intro c hc
    rw [trimNL, if_neg hd, if_pos hw, if_neg hh] at hc
    rcases List.mem_append.1 hc with h | h
    · rcases List.mem_cons.1 h with h2 | h2
      · simp [h2]
      · exact List.mem_cons_of_mem _ (List.takeWhile_subset _ h2)
    · exact List.mem_cons_of_mem _ (List.dropWhile_subset _ (ih c h))
  | case5 d rest hd hw ih =>
    intro c hc
    rw [trimNL, if_neg hd, if_neg hw] at hc
    rcases List.mem_cons.1 hc with h | h
    · simp [h]
    · exact List.mem_cons_of_mem _ (ih c h)

theorem trimNL_head {u : List Char}
    (h : ∀ c ∈ u.head?, isHWS c = false) : (trimNL u).head? = u.head? := by
  cases u with
  | nil => simp [trimNL]
  | cons c t =>
    by_cases hc : c = '\n'
    · subst hc
      rw [trimNL, if_pos rfl]
      rfl
    · have hw : isHWS c = false := h c rfl
      rw [trimNL, if_neg hc, if_neg (by simp [hw])]
      rfl

theorem trimNL_chain : ∀ (s : List Char), NoBad s →
    List.Chain' (fun a b => isHWS a = false ∨ isHWS b = false) s →
    List.Chain' spOK (trimNL s) := by
  intro s
  induction s using trimNL.induct with
  | case1 => intro _ _; simp [trimNL]
  | case2 rest ih =>
    intro hbad hch
    rw [trimNL, if_pos rfl]
    have hbadr : NoBad rest := fun c hc => hbad c (List.mem_cons_of_mem _ hc)
    refine List.chain'_cons'.2
      ⟨?_, ih (noBad_dropWhile hbadr _)
            (chain'_dropWhile (List.chain'_cons'.1 hch).2 _)⟩
    intro y hy
    rw [trimNL_head (fun c hc => head?_dropWhile hc)] at hy
    have hws := head?_dropWhile hy
    refine spOK_nl_left (fun he => ?_)
    rw [he] at hws
    exact absurd hws (by decide)
  | case3 d rest hd hw hh ih =>
    intro hbad hch
    rw [trimNL, if_neg hd, if_pos hw, if_pos hh]
    have hbadr : NoBad rest := fun c hc => hbad c (List.mem_cons_of_mem _ hc)
    exact ih (noBad_dropWhile hbadr _)
      (chain'_dropWhile (List.chain'_cons'.1 hch).2 _)
  | case4 d rest hd hw hh ih =>
    intro hbad hch
    have hsp : d = ' ' := space_of_isHWS_nobad hbad (List.mem_cons_self d rest) hw
    subst hsp
    have hhead : ∀ c ∈ rest.head?, isHWS c = false := by
      intro c hc
      cases rest with
      | nil => simp at hc
      | cons e t =>
        simp only [List.head?_cons, Option.mem_def, Option.some.injEq] at hc
        subst hc
        rcases (List.chain'_cons'.1 hch).1 e rfl with h | h
        · rw [hw] at h
          cases h
        · exact h
    have htw : rest.takeWhile isHWS = [] := by
      cases rest with
      | nil => rfl
      | cons e t => exact List.takeWhile_cons_of_neg (by simp [hhead e rfl])
    have hdw : rest.dropWhile isHWS = rest := dropWhile_eq_self_of_head hhead
    have hbadr : NoBad rest := fun c hc => hbad c (List.mem_cons_of_mem _ hc)
    have ih2 := ih (by rw [hdw]; exact hbadr)
      (by rw [hdw]; exact (List.chain'_cons'.1 hch).2)
    rw [hdw] at ih2 hh
    rw [trimNL, if_neg hd, if_pos hw, hdw, if_neg hh, htw]
    simp only [List.cons_append, List.nil_append]
    refine List.chain'_cons'.2 ⟨?_, ih2⟩
    intro y hy
    rw [trimNL_head hhead] at hy
    have h1 : y ≠ ' ' := fun he => by
      have hws := hhead y hy
      rw [he] at hws
      exact absurd hws (by decide)
    have h2 : y ≠ '\n' := fun he => hh (by rw [← he]; exact hy)
    exact spOK_sp_left h1 h2
  | case5 d rest hd hw ih =>
    intro hbad hch
    rw [trimNL, if_neg hd, if_neg hw]
    refine List.chain'_cons'.2
      ⟨?_, ih (fun c hc => hbad c (List.mem_cons_of_mem _ hc))
            (List.chain'_cons'.1 hch).2⟩
    intro y hy
    refine spOK_of_left (fun he => ?_) hd
    rw [he] at hw
    exact hw (by decide)

theorem collapseNL3_mem : ∀ (s : List Char), ∀ c ∈ collapseNL3 s, c ∈ s := by
  intro s
  induction s using collapseNL3.induct with
  | case1 rest ih =>
    intro c hc
    rw [collapseNL3] at hc
    rcases List.mem_cons.1 hc with h | h
    · simp [h]
    · rcases List.mem_cons.1 h with h2 | h2
      · simp [h2]
      · exact List.mem_cons_of_mem _ (List.mem_cons_of_mem _
          (List.mem_cons_of_mem _ (List.dropWhile_subset _ (ih c h2))))
  | case2 d rest hne ih =>
    intro c hc
    rw [collapseNL3.eq_2 d rest hne] at hc
    rcases List.mem_cons.1 hc with h | h
    · simp [h]
    · exact List.mem_cons_of_mem _ (ih c h)
  | case3 => intro c hc; simp [collapseNL3] at hc

theorem collapseNL3_head : ∀ (s : List Char), (collapseNL3 s).head? = s.head? := by
  intro s
  induction s using collapseNL3.induct with
  | case1 rest ih => rw [collapseNL3]; rfl
  | case2 d rest hne ih => rw [collapseNL3.eq_2 d rest hne]; rfl
  | case3 => simp [collapseNL3]

theorem hasTriple_cons_eq_false {c : Char} {l : List Char}
    (hl : hasTriple l = false)
    (hw : ¬(c = '\n' ∧ l.head? = some '\n' ∧ l.tail.head? = some '\n')) :
    hasTriple (c :: l) = false := by
  cases l with
  | nil => rfl
  | cons a t =>
    cases t with
    | nil => rfl
    | cons b t2 =>
      have hw2 : ¬(c = '\n' ∧ a = '\n' ∧ b = '\n') := by simpa using hw
      have hfront : (c == '\n' && (a == '\n') && (b == '\n')) = false := by
        by_cases hc : c = '\n'
        · by_cases ha : a = '\n'
          · by_cases hb : b = '\n'
            · exact absurd ⟨hc, ha, hb⟩ hw2
            · rw [beq_eq_false_iff_ne.2 hb, Bool.and_false]
          · rw [beq_eq_false_iff_ne.2 ha, Bool.and_false, Bool.false_and]
        · rw [beq_eq_false_iff_ne.2 hc, Bool.false_and, Bool.false_and]
      simp only [hasTriple, hfront, Bool.false_or]
      exact hl

theorem collapseNL3_noTriple : ∀ (s : List Char),
    hasTriple (collapseNL3 s) = false := by
  intro s
  induction s using collapseNL3.induct with
  | case1 rest ih =>
    rw [collapseNL3]
    have hhd : ∀ y, (collapseNL3 (rest.dropWhile (fun c => c == '\n'))).head?
        = some y → ¬ y = '\n' := by
      intro y hy
      rw [collapseNL3_head] at hy
      have := head?_dropWhile hy
      simpa using this
    refine hasTriple_cons_eq_false (hasTriple_cons_eq_false ih ?_) ?_
    · rintro ⟨-, h2, -⟩
      exact hhd '\n' h2 rfl
    · rintro ⟨-, -, h3⟩
      rw [List.tail_cons] at h3
      exact hhd '\n' h3 rfl
  | case2 d rest hne ih =>
    rw [collapseNL3.eq_2 d rest hne]
    refine hasTriple_cons_eq_false ih ?_
    rintro ⟨hc, h2, h3⟩
    rw [collapseNL3_head] at h2
    cases rest with
    | nil => cases h2
    | cons a t =>
      simp only [List.head?_cons, Option.some.injEq] at h2
      subst h2
      have ht : t.head? ≠ some '\n' := by
        intro hth
        cases t with
        | nil => cases hth
        | cons b t2 =>
          simp only [List.head?_cons, Option.some.injEq] at hth
          subst hth
          exact hne t2 hc rfl
      have he2 : collapseNL3 ('\n' :: t) = '\n' :: collapseNL3 t := by
        refine collapseNL3.eq_2 '\n' t ?_
        intro r1 _ he
        exact ht (by rw [he]; rfl)
      rw [he2, List.tail_cons, collapseNL3_head] at h3
      exact ht h3
  | case3 => simp [collapseNL3, hasTriple]

theorem chain_nl_dropWhile : ∀ (l : List Char), List.Chain' spOK ('\n' :: l) →
    ∀ y, (l.dropWhile (fun c => c == '\n')).head? = some y → ¬ y = ' '
  | [], _, y, hy => by simp at hy
  | x :: t, hch, y, hy => by
    by_cases hx : x = '\n'
    · subst hx
      rw [List.dropWhile_cons_of_pos (by simp)] at hy
      exact chain_nl_dropWhile t (List.chain'_cons'.1 hch).2 y hy
    · rw [List.dropWhile_cons_of_neg (by simpa using hx)] at hy
      simp only [List.head?_cons, Option.some.injEq] at hy
      subst hy
      have hpair : spOK '\n' x := (List.chain'_cons'.1 hch).1 x rfl
      exact fun hsp => hpair.2.2 ⟨rfl, hsp⟩

theorem collapseNL3_chain : ∀ (s : List Char), List.Chain' spOK s →
    List.Chain' spOK (collapseNL3 s) := by
  intro s
  induction s using collapseNL3.induct with
  | case1 rest ih =>
    intro hch
    rw [collapseNL3]
    have hch1 : List.Chain' spOK ('\n' :: '\n' :: rest) :=
      (List.chain'_cons'.1 hch).2
    have hch2 : List.Chain' spOK ('\n' :: rest) := (List.chain'_cons'.1 hch1).2
    have hchr : List.Chain' spOK rest := (List.chain'_cons'.1 hch2).2
    refine List.chain'_cons'.2 ⟨?_, List.chain'_cons'.2
      ⟨?_, ih (chain'_dropWhile hchr _)⟩⟩
    · intro y hy
      simp only [List.head?_cons, Option.mem_def, Option.some.injEq] at hy
      subst hy
      exact spOK_nl_left (by decide)
    · intro y hy
      rw [collapseNL3_head] at hy
      exact spOK_nl_left (chain_nl_dropWhile rest hch2 y hy)
  | case2 d rest hne ih =>
    intro hch
    rw [collapseNL3.eq_2 d rest hne]
    refine List.chain'_cons'.2 ⟨?_, ih (List.chain'_cons'.1 hch).2⟩
    intro y hy
    rw [collapseNL3_head] at hy
    exact (List.chain'_cons'.1 hch).1 y hy
  | case3 => intro _; simp [collapseNL3]

theorem dropEnd_decomp (p : Char → Bool) (l : List Char) :
    ∃ w, l = dropEnd p l ++ w := by
  refine ⟨(l.reverse.takeWhile p).reverse, ?_⟩
  unfold dropEnd List.rdropWhile
  rw [← List.reverse_append, List.takeWhile_append_dropWhile,
    List.reverse_reverse]

theorem chain'_dropEnd {R : Char → Char → Prop} {l : List Char}
    (h : List.Chain' R l) (q : Char → Bool) : List.Chain' R (dropEnd q l) := by
  obtain ⟨w, hw⟩ := dropEnd_decomp q l
  rw [hw] at h
  exact h.left_of_append

theorem hasTriple_dropWhile {l : List Char} (h : hasTriple l = false)
    (q : Char → Bool) : hasTriple (l.dropWhile q) = false := by
  induction l with
  | nil => exact h
  | cons c t ih =>
    by_cases hq : q c = true
    · rw [List.dropWhile_cons_of_pos hq]
      exact ih (hasTriple_tail h)
    · rw [List.dropWhile_cons_of_neg (by simpa using hq)]
      exact h

theorem hasTriple_append_left : ∀ (u w : List Char),
    hasTriple (u ++ w) = false → hasTriple u = false
  | [], _, _ => rfl
  | [_], _, _ => rfl
  | [_, _], _, _ => rfl
  | a :: b :: c :: r, w, h => by
    simp only [List.cons_append, hasTriple, Bool.or_eq_false_iff] at h ⊢
    exact ⟨h.1, hasTriple_append_left (b :: c :: r) w h.2⟩

theorem hasTriple_dropEnd {l : List Char} (h : hasTriple l = false)
    (q : Char → Bool) : hasTriple (dropEnd q l) = false := by
  obtain ⟨w, hw⟩ := dropEnd_decomp q l
  rw [hw] at h
  exact hasTriple_append_left _ _ h

theorem noBad_collapseHWS_tabs (u : List Char) (hu : '\r' ∉ u) :
    NoBad (collapseHWS (collapseTabs u)) := by
  intro c hc
  simp only [collapseHWS] at hc
  rcases collapseRuns_mem c hc with h | ⟨hmem, hws⟩
  · subst h
    exact ⟨by decide, by decide, by decide, by decide⟩
  · have hc1 : c ≠ '\t' := fun he => by
      rw [he] at hws
      exact absurd hws (by decide)
    have hc2 : c ≠ '\x0c' := fun he => by
      rw [he] at hws
      exact absurd hws (by decide)
    have hc3 : c ≠ '\x0b' := fun he => by
      rw [he] at hws
      exact absurd hws (by decide)
    have hcr : c ≠ '\r' := by
      simp only [collapseTabs] at hmem
      rcases collapseRuns_mem c hmem with h | ⟨hmem2, h2⟩
      · subst h
        decide
      · exact fun he => hu (he ▸ hmem2)
    exact ⟨hcr, hc1, hc2, hc3⟩

theorem noBad_passes (raw : List Char) : NoBad (cleanPasses raw) :=
  fun c hc => noBad_collapseHWS_tabs _ (replCR_no_cr _) c
    (trimNL_mem _ c (collapseNL3_mem _ c hc))

theorem chain_passes (raw : List Char) : List.Chain' spOK (cleanPasses raw) :=
  collapseNL3_chain _ (trimNL_chain _
    (noBad_collapseHWS_tabs _ (replCR_no_cr _)) (collapseRuns_chain _))

theorem noTriple_passes (raw : List Char) :
    hasTriple (cleanPasses raw) = false :=
  collapseNL3_noTriple _

theorem pyStrip_strip_sp (l : List Char) :
    pyStrip (dropEnd (fun c => c == ' ')
      (l.dropWhile (fun c => c == ' '))) = pyStrip l := by
  have hpq : ∀ c : Char, (c == ' ') = true → isPyWS c = true := by
    intro c hc
    rw [show c = ' ' from by simpa using hc]
    decide
  unfold pyStrip
  rw [dropWhile_dropEnd_comm, dropWhile_dropWhile hpq, dropEnd_dropEnd hpq]

theorem clean_text_eq (raw : List Char) :
    clean_text raw = pyStrip (cleanPasses raw) := by
  have hch := chain_passes raw
  have hbad := noBad_passes raw
  simp only [cleanPasses] at hch hbad
  simp only [clean_text]
  rw [lineStage_eq _ hch hbad, pyStrip_strip_sp]
  rfl

theorem cleanInv_clean (raw : List Char) : CleanInv (clean_text raw) := by
  rw [clean_text_eq]
  refine ⟨fun c hc => noBad_passes raw c (mem_pyStrip hc), ?_, ?_,
    fun c hc => pyStrip_head hc, fun c hc => pyStrip_last hc⟩
  · exact chain'_dropEnd (chain'_dropWhile (chain_passes raw) _) _
  · exact hasTriple_dropEnd (hasTriple_dropWhile (noTriple_passes raw) _) _

theorem cleanInv_nil : CleanInv [] := by
  refine ⟨?_, List.chain'_nil, rfl, ?_, ?_⟩ <;> intro c hc <;> simp at hc

theorem clean_id_of_inv {s : List Char} (h : CleanInv s) : clean_text s = s := by
  obtain ⟨hbad, hch, htr, hhd, htl⟩ := h
  have hnr : '\r' ∉ s := fun hc => (hbad _ hc).1 rfl
  have h3 : collapseTabs s = s := by
    simp only [collapseTabs]
    refine collapseRuns_id s ?_
    intro c hc
    exact beq_eq_false_iff_ne.2 (hbad c hc).2.1
  rw [clean_text_eq]
  simp only [cleanPasses]
  rw [replCRLF_id s hnr, replCR_id hnr, h3, collapseHWS_id s hbad hch,
    trimNL_id s hbad hch, collapseNL3_id s htr]
  exact pyStrip_eq_self hhd htl

theorem passes_ws {x : List Char} (h : ∀ c ∈ x, isPyWS c = true) :
    ∀ c ∈ cleanPasses x, isPyWS c = true := by
  intro c hc
  simp only [cleanPasses] at hc
  have hc4 := trimNL_mem _ c (collapseNL3_mem _ c hc)
  simp only [collapseHWS] at hc4
  rcases collapseRuns_mem c hc4 with he | ⟨hc3, h3⟩
  · subst he
    decide
  · simp only [collapseTabs] at hc3
    rcases collapseRuns_mem c hc3 with he | ⟨hc2, h2⟩
    · subst he
      decide
    · rcases replCR_mem hc2 with hc1 | he
      · exact h c (replCRLF_subset _ c hc1)
      · subst he
        decide

theorem clean_text_ws_nil {x : List Char} (h : ∀ c ∈ x, isPyWS c = true) :
    clean_text x = [] := by
  rw [clean_text_eq]
  exact pyStrip_eq_nil_of_all (passes_ws h)

/-! ## The faithful strip: congruence with the ASCII model -/

theorem splitNL_mem : ∀ (s : List Char), ∀ l ∈ splitNL s, ∀ c ∈ l, c ∈ s := by
  intro s
  induction s with
  | nil =>
    intro l hl c hc
    simp only [splitNL, List.mem_cons, List.not_mem_nil, or_false] at hl
    subst hl
    simp at hc
  | cons d rest ih =>
    by_cases hd : d = '\n'
    · subst hd
      intro l hl c hc
      rw [show splitNL ('\n' :: rest) = [] :: splitNL rest from by simp [splitNL]] at hl
      rcases List.mem_cons.1 hl with h | h
      · subst h
        simp at hc
      · exact List.mem_cons_of_mem _ (ih l h c hc)
    · intro l hl c hc
      rw [splitNL_cons_ne rest hd] at hl
      obtain ⟨a, t, hshape⟩ := splitNL_shape rest
      rw [hshape] at hl
      rcases List.mem_cons.1 hl with h | h
      · subst h
        rcases List.mem_cons.1 hc with h2 | h2
        · simp [h2]
        · exact List.mem_cons_of_mem _
            (ih a (by rw [hshape]; exact List.mem_cons_self _ _) c h2)
      · exact List.mem_cons_of_mem _
          (ih l (by rw [hshape]; exact List.mem_cons_of_mem _ h) c hc)

theorem mem_intercalate_nl :
    ∀ (L : List (List Char)) {c : Char}, c ∈ List.intercalate ['\n'] L →
      c = '\n' ∨ ∃ l ∈ L, c ∈ l
  | [], c, h => by simp [List.intercalate] at h
  | [a], c, h => by
    rw [intercalate_one] at h
    exact Or.inr ⟨a, List.mem_cons_self _ _, h⟩
  | a :: b :: t, c, h => by
    rw [intercalate_two] at h
    rcases List.mem_append.1 h with h1 | h1
    · rcases List.mem_append.1 h1 with h2 | h2
      · exact Or.inr ⟨a, List.mem_cons_self _ _, h2⟩
      · exact Or.inl (by simpa using h2)
    · rcases mem_intercalate_nl (b :: t) h1 with h2 | ⟨l, hl, hcl⟩
      · exact Or.inl h2
      · exact Or.inr ⟨l, List.mem_cons_of_mem _ hl, hcl⟩

theorem passes_mem {x : List Char} :
    ∀ c ∈ cleanPasses x, c ∈ x ∨ c = ' ' ∨ c = '\n' := by
  intro c hc
  simp only [cleanPasses] at hc
  have hc4 := trimNL_mem _ c (collapseNL3_mem _ c hc)
  simp only [collapseHWS] at hc4
  rcases collapseRuns_mem c hc4 with he | ⟨hc3, _⟩
  · exact Or.inr (Or.inl he)
  · simp only [collapseTabs] at hc3
    rcases collapseRuns_mem c hc3 with he | ⟨hc2, _⟩
    · exact Or.inr (Or.inl he)
    · rcases replCR_mem hc2 with hc1 | he
      · exact Or.inl (replCRLF_subset _ c hc1)
      · exact Or.inr (Or.inr he)

theorem clean_text_mem {x : List Char} :
    ∀ c ∈ clean_text x, c ∈ x ∨ c = ' ' ∨ c = '\n' := by
  intro c hc
  rw [clean_text_eq] at hc
  exact passes_mem c (mem_pyStrip hc)

theorem pyStripFull_congr {l : List Char}
    (h : ∀ c ∈ l, isPyWSFull c = isPyWS c) : pyStripFull l = pyStrip l := by
  unfold pyStripFull pyStrip
  rw [dropWhile_congr_mem h,
    dropEnd_congr_mem (fun c hc => h c (List.dropWhile_subset _ hc))]

theorem clean_text_py_eq {x : List Char}
    (h : ∀ c ∈ x, isPyWSFull c = isPyWS c) : clean_text_py x = clean_text x := by
  have h5 : ∀ c ∈ cleanPasses x, isPyWSFull c = isPyWS c := by
    intro c hc
    rcases passes_mem c hc with h1 | h1 | h1
    · exact h c h1
    · rw [h1]
      decide
    · rw [h1]
      decide
  simp only [cleanPasses] at h5
  simp only [clean_text_py, clean_text]
  have hmap : (splitNL (collapseNL3 (trimNL (collapseHWS (collapseTabs
      (replCR (replCRLF x))))))).map pyStripFull
      = (splitNL (collapseNL3 (trimNL (collapseHWS (collapseTabs
        (replCR (replCRLF x))))))).map pyStrip := by
    refine List.map_congr_left ?_
    intro piece hp
    exact pyStripFull_congr (fun c hc => h5 c (splitNL_mem _ piece hp c hc))
  rw [hmap]
  refine pyStripFull_congr ?_
  intro c hc
  rcases mem_intercalate_nl _ hc with he | ⟨l2, hl2, hcl⟩
  · rw [he]
    decide
  · obtain ⟨piece, hpiece, rfl⟩ := List.mem_map.1 hl2
    exact h5 c (splitNL_mem _ piece hpiece c (mem_pyStrip hcl))

/-! ## Lemmas about the Duration Allocator -/

theorem pushEvent_chain (minE cli clo : ℚ) (events : List TEvent)
    (txt : List Char) (s e : ℚ)
    (h : List.Chain' (fun a b => a.stop ≤ b.start) events) :
    List.Chain' (fun a b => a.stop ≤ b.start)
      (pushEvent minE cli clo events txt s e) := by
  unfold pushEvent
  cases hl : events.getLast? with
  | none =>
    cases events with
    | nil => simp
    | cons a t => simp [List.getLast?_concat] at hl
  | some prev =>
    have hlast : ∀ x ∈ events.getLast?, ∀ (y : TEvent),
        x.stop ≤ y.start → List.Chain' (fun a b => a.stop ≤ b.start)
          (events ++ [y]) := by
      intro x hx y hy
      exact List.Chain'.append h (List.chain'_singleton y)
        (by intro a ha b hb
            simp at hb
            subst hb
            rw [hx] at ha
            cases ha
            exact hy)
    by_cases hc : max 0 (s - cli) < prev.stop
    · simp only [hc, if_true]
      exact hlast prev hl _ (le_refl _)
    · simp only [hc, if_false]
      exact hlast prev hl _ (le_of_not_lt hc)

theorem sentEvents_chain (minE cli clo : ℚ) :
    ∀ (segs : List (List Char × (ℚ × ℚ))) (events : List TEvent),
      List.Chain' (fun a b => a.stop ≤ b.start) events →
      List.Chain' (fun a b => a.stop ≤ b.start)
        (sentEvents minE cli clo events segs)
  | [], _, h => h
  | (txt, b) :: rest, events, h =>
    sentEvents_chain minE cli clo rest _
      (pushEvent_chain minE cli clo events txt b.1 b.2 h)

theorem buildEventsAux_chain (cli clo : ℚ) :
    ∀ (pieces : List Piece) (t : ℚ) (events : List TEvent),
      List.Chain' (fun a b => a.stop ≤ b.start) events →
      List.Chain' (fun a b => a.stop ≤ b.start)
        (buildEventsAux cli clo t events pieces)
  | [], _, _, h => h
  | _ :: rest, _, events, h =>
    buildEventsAux_chain cli clo rest _ _
      (sentEvents_chain (3/100) cli clo _ events h)

/-- C1: for every TimedEvent sequence produced by the Duration Allocator,
and for every adjacent pair of events, the next event's start is at least
the previous event's end, for all sentence durations, segment weights and
lead-in/lead-out/gap parameters. -/
theorem c1_nonoverlap (leadInMs cliMs cloMs : ℤ) (pieces : List Piece) :
    List.Chain' (fun a b => a.stop ≤ b.start)
      (generateEvents leadInMs cliMs cloMs pieces) :=
  buildEventsAux_chain _ _ pieces _ [] List.chain'_nil

theorem pushEvent_pos (minE cli clo : ℚ) (hminE : 0 < minE)
    (events : List TEvent) (txt : List Char) (s e : ℚ)
    (h : ∀ ev ∈ events, ev.start < ev.stop) :
    ∀ ev ∈ pushEvent minE cli clo events txt s e, ev.start < ev.stop := by
  unfold pushEvent
  have base : ∀ (y : TEvent), y.start < y.stop →
      ∀ ev ∈ events ++ [y], ev.start < ev.stop := by
    intro y hy ev hev
    rcases List.mem_append.1 hev with h1 | h2
    · exact h ev h1
    · simp at h2
      subst h2
      exact hy
  have h0 : max 0 (s - cli) < max (max 0 (s - cli) + minE) (e - clo) :=
    lt_max_of_lt_left (by linarith)
  cases hl : events.getLast? with
  | none => exact base _ h0
  | some prev =>
    by_cases hc : max 0 (s - cli) < prev.stop
    · simp only [hc, if_true]
      by_cases hend : max (max 0 (s - cli) + minE) (e - clo) ≤ prev.stop
      · simp only [hend, if_true]
        exact base _ (show prev.stop < prev.stop + minE by linarith)
      · simp only [hend, if_false]
        exact base _ (lt_of_not_le hend)
    · simp only [hc, if_false]
      exact base _ h0

theorem sentEvents_pos (minE cli clo : ℚ) (hminE : 0 < minE) :
    ∀ (segs : List (List Char × (ℚ × ℚ))) (events : List TEvent),
      (∀ ev ∈ events, ev.start < ev.stop) →
      ∀ ev ∈ sentEvents minE cli clo events segs, ev.start < ev.stop
  | [], _, h => h
  | (txt, b) :: rest, events, h =>
    sentEvents_pos minE cli clo hminE rest _
      (pushEvent_pos minE cli clo hminE events txt b.1 b.2 h)

theorem buildEventsAux_pos (cli clo : ℚ) :
    ∀ (pieces : List Piece) (t : ℚ) (events : List TEvent),
      (∀ ev ∈ events, ev.start < ev.stop) →
      ∀ ev ∈ buildEventsAux cli clo t events pieces, ev.start < ev.stop
  | [], _, _, h => h
  | _ :: rest, _, events, h =>
    buildEventsAux_pos cli clo rest _ _
      (sentEvents_pos (3/100) cli clo (by norm_num) _ events h)

/-- C2 counterexample: a sentence of duration 0.04 s split into two
segments of weight 1 produces the events (0, 0.03) and (0.03, 0.05); the
second event was clamped forward by the non-overlap rule and lasts only
0.02 s, below the 0.03 s minimum the claim asserts. -/
theorem c2_counterexample :
    (generateEvents 0 0 0 [⟨[['a'], ['b']], 1/25, 0⟩]).map
        (fun e => (e.start, e.stop)) = [(0, 3/100), (3/100, 1/20)] ∧
      ¬ ((3 : ℚ)/100 ≤ 1/20 - 3/100) := by
  have hw : weightOf ['a'] = 1 := by decide
  have hw' : weightOf ['b'] = 1 := by decide
  constructor
  · norm_num [generateEvents, buildEventsAux, sentEvents, pushEvent, segBounds,
      hw, hw', List.getLast?]
  · norm_num

/-- C2 (amended): for every TimedEvent produced by the Duration Allocator,
`end_seconds` is strictly greater than `start_seconds`, for all inputs; the
0.03 s floor holds before the non-overlap clamping, but the clamp can
leave an event with a positive duration shorter than 0.03 s. -/
theorem c2_positive_duration (leadInMs cliMs cloMs : ℤ) (pieces : List Piece)
    (ev : TEvent) (hev : ev ∈ generateEvents leadInMs cliMs cloMs pieces) :
    ev.start < ev.stop :=
  buildEventsAux_pos _ _ pieces _ [] (by simp) ev hev

/-- Witness for `c2_positive_duration` at a concrete input. -/
theorem c2_positive_duration_witness :
    (⟨['a'], 0, 1⟩ : TEvent) ∈ generateEvents 0 0 0 [⟨[['a']], 1, 0⟩] ∧
      (0 : ℚ) < 1 :=
  ⟨by
    have hw : weightOf ['a'] = 1 := by decide
    norm_num [generateEvents, buildEventsAux, sentEvents, pushEvent, segBounds,
      hw, List.getLast?],
   c2_positive_duration 0 0 0 [⟨[['a']], 1, 0⟩] ⟨['a'], 0, 1⟩
    (by
      have hw : weightOf ['a'] = 1 := by decide
      norm_num [generateEvents, buildEventsAux, sentEvents, pushEvent, segBounds,
        hw, List.getLast?])⟩

theorem segBounds_length (minE dur totalW sentEnd : ℚ) :
    ∀ (ws : List ℚ) (segStart : ℚ),
      (segBounds minE dur totalW sentEnd segStart ws).length = ws.length
  | [], _ => rfl
  | _ :: rest, segStart => by
    simp only [segBounds, List.length_cons]
    rw [segBounds_length minE dur totalW sentEnd rest]

theorem segBounds_exact (minE dur totalW : ℚ) (sentEnd : ℚ)
    (hdur : 0 < dur) (hW : 0 < totalW) :
    ∀ (ws : List ℚ) (segStart : ℚ), (∀ w ∈ ws, 1 ≤ w) →
      sentEnd = segStart + dur * (ws.sum / totalW) →
      (segBounds minE dur totalW sentEnd segStart ws).map (fun p => p.2 - p.1)
          = ws.map (fun w => dur * (w / totalW)) ∧
        (ws ≠ [] →
          (segBounds minE dur totalW sentEnd segStart ws).getLast?.map Prod.snd
            = some sentEnd)
  | [], _, _, _ => ⟨rfl, fun h => absurd rfl h⟩
  | w :: rest, segStart, hws, hsum => by
    have hw1 : (1 : ℚ) ≤ w := hws w (List.mem_cons_self w rest)
    have hstep : 0 < dur * (w / totalW) := by positivity
    cases rest with
    | nil =>
      have hEnd : sentEnd = segStart + dur * (w / totalW) := by
        simpa using hsum
      have hlt : ¬ sentEnd ≤ segStart := by
        rw [hEnd]; push_neg; linarith
      refine ⟨?_, fun _ => ?_⟩
      · simp only [segBounds, List.isEmpty_nil, if_true, hlt, if_false,
          List.map_cons, List.map_nil]
        rw [hEnd]; ring_nf
      · simp [segBounds, hlt]
    | cons w2 rest2 =>
      have hlt : ¬ segStart + dur * (w / totalW) ≤ segStart := by
        push_neg; linarith
      have hkey : segBounds minE dur totalW sentEnd segStart (w :: w2 :: rest2)
          = (segStart, segStart + dur * (w / totalW))
            :: segBounds minE dur totalW sentEnd
                (segStart + dur * (w / totalW)) (w2 :: rest2) := by
        simp only [segBounds, List.isEmpty_cons, Bool.false_eq_true, if_false,
          hlt]
      have hsum' : sentEnd = (segStart + dur * (w / totalW))
          + dur * ((w2 :: rest2).sum / totalW) := by
        rw [hsum, List.sum_cons]
        field_simp
        ring
      have hws' : ∀ x ∈ w2 :: rest2, (1 : ℚ) ≤ x :=
        fun x hx => hws x (List.mem_cons_of_mem w hx)
      obtain ⟨ih1, ih2⟩ := segBounds_exact minE dur totalW sentEnd hdur hW
        (w2 :: rest2) (segStart + dur * (w / totalW)) hws' hsum'
      have hlen : (segBounds minE dur totalW sentEnd
          (segStart + dur * (w / totalW)) (w2 :: rest2)).length
            = (w2 :: rest2).length := segBounds_length _ _ _ _ _ _
      refine ⟨?_, fun _ => ?_⟩
      · rw [hkey, List.map_cons, ih1, List.map_cons]
        simp
      · have h2 := ih2 (by simp)
        rw [hkey]
        cases hsb : segBounds minE dur totalW sentEnd
            (segStart + dur * (w / totalW)) (w2 :: rest2) with
        | nil => rw [hsb] at hlen; simp at hlen
        | cons q qs =>
          rw [hsb] at h2
          rw [List.getLast?_cons_cons]
          exact h2

/-- C3 counterexample: at total duration 0 (with two one-character
segments), the first, non-final segment gets the 0.03 s minimum-event
duration instead of `total_duration * (weight / total_weight) = 0`, and
the final segment's end is 0.06 rather than the sentence end
`sentence_start + total_duration = 0`, so the claim's general clause
fails for zero total duration. -/
theorem c3_counterexample :
    segBounds (3/100) 0
        (([['a'], ['b']].map (fun s => (weightOf s : ℚ))).sum) (0 + 0) 0
        ([['a'], ['b']].map (fun s => (weightOf s : ℚ)))
      = [(0, 3/100), (3/100, 3/50)] ∧
      ¬ ((3 : ℚ)/100 - 0 = 0 * ((1 : ℚ) / 2)) ∧ ¬ ((3 : ℚ)/50 = 0 + 0) := by
  have hw : weightOf ['a'] = 1 := by decide
  have hw' : weightOf ['b'] = 1 := by decide
  refine ⟨?_, by norm_num, by norm_num⟩
  norm_num [segBounds, hw, hw']

/-- C3 (amended): for a single sentence of positive total duration whose
segments have weights `[3, 3, 6]` (character counts of the segment texts)
and total duration 4.0 s, the pre-lead/lag sub-durations are exactly 1.0,
1.0 and 2.0 s and the last segment's end equals the sentence end; in
general, for positive total duration, each segment's pre-lead/lag duration
is `total_duration * (weight / total_weight)` and the final segment's end
is pinned to `sentence_start + total_duration`.  (For zero total duration
the 0.03 s minimum-event clamp takes over instead.) -/
theorem c3_proportional_allocation :
    ((segBounds (3/100) 4
          (([ "abc".data, "def".data, "ghijkl".data ].map
            (fun s => (weightOf s : ℚ))).sum) (0 + 4) 0
          ([ "abc".data, "def".data, "ghijkl".data ].map
            (fun s => (weightOf s : ℚ)))).map (fun p => p.2 - p.1)
        = [1, 1, 2] ∧
      (segBounds (3/100) 4
          (([ "abc".data, "def".data, "ghijkl".data ].map
            (fun s => (weightOf s : ℚ))).sum) (0 + 4) 0
          ([ "abc".data, "def".data, "ghijkl".data ].map
            (fun s => (weightOf s : ℚ)))).getLast?.map Prod.snd
        = some (0 + 4)) ∧
    ∀ (dur sentStart : ℚ) (segTexts : List (List Char)),
      0 < dur → segTexts ≠ [] →
      ((segBounds (3/100) dur
            ((segTexts.map (fun s => (weightOf s : ℚ))).sum)
            (sentStart + dur) sentStart
            (segTexts.map (fun s => (weightOf s : ℚ)))).map
              (fun p => p.2 - p.1)
          = (segTexts.map (fun s => (weightOf s : ℚ))).map
              (fun w => dur * (w / (segTexts.map
                (fun s => (weightOf s : ℚ))).sum))) ∧
        ((segBounds (3/100) dur
            ((segTexts.map (fun s => (weightOf s : ℚ))).sum)
            (sentStart + dur) sentStart
            (segTexts.map (fun s => (weightOf s : ℚ)))).getLast?.map Prod.snd
          = some (sentStart + dur)) := by
  have hgen : ∀ (dur sentStart : ℚ) (segTexts : List (List Char)),
      0 < dur → segTexts ≠ [] →
      ((segBounds (3/100) dur
            ((segTexts.map (fun s => (weightOf s : ℚ))).sum)
            (sentStart + dur) sentStart
            (segTexts.map (fun s => (weightOf s : ℚ)))).map
              (fun p => p.2 - p.1)
          = (segTexts.map (fun s => (weightOf s : ℚ))).map
              (fun w => dur * (w / (segTexts.map
                (fun s => (weightOf s : ℚ))).sum))) ∧
        ((segBounds (3/100) dur
            ((segTexts.map (fun s => (weightOf s : ℚ))).sum)
            (sentStart + dur) sentStart
            (segTexts.map (fun s => (weightOf s : ℚ)))).getLast?.map Prod.snd
          = some (sentStart + dur)) := by
    intro dur sentStart segTexts hdur hne
    have hws : ∀ w ∈ segTexts.map (fun s => (weightOf s : ℚ)), (1 : ℚ) ≤ w := by
      intro w hw
      obtain ⟨s, _, rfl⟩ := List.mem_map.1 hw
      exact_mod_cast Nat.one_le_cast.2 (le_max_right _ 1)
    have hW : 0 < (segTexts.map (fun s => (weightOf s : ℚ))).sum := by
      cases segTexts with
      | nil => exact absurd rfl hne
      | cons s ts =>
        have h1 : (1 : ℚ) ≤ (weightOf s : ℚ) :=
          hws _ (by simp)
        have h0 : 0 ≤ (ts.map (fun s => (weightOf s : ℚ))).sum :=
          List.sum_nonneg (fun x hx => le_trans zero_le_one
            (hws x (by simp; right; simpa using hx)))
        simp only [List.map_cons, List.sum_cons]
        linarith
    have hsum : sentStart + dur = sentStart
        + dur * ((segTexts.map (fun s => (weightOf s : ℚ))).sum
          / (segTexts.map (fun s => (weightOf s : ℚ))).sum) := by
      rw [div_self (ne_of_gt hW), mul_one]
    obtain ⟨h1, h2⟩ := segBounds_exact (3/100) dur _ (sentStart + dur) hdur hW
      (segTexts.map (fun s => (weightOf s : ℚ))) sentStart hws hsum
    exact ⟨h1, h2 (by simpa using hne)⟩
  refine ⟨?_, hgen⟩
  have hw3 : weightOf "abc".data = 3 := by decide
  have hw3' : weightOf "def".data = 3 := by decide
  have hw6 : weightOf "ghijkl".data = 6 := by decide
  obtain ⟨h1, h2⟩ := hgen 4 0 [ "abc".data, "def".data, "ghijkl".data ]
    (by norm_num) (by simp)
  constructor
  · rw [h1]
    norm_num [hw3, hw3', hw6]
  · exact h2

/-- Witness for the general clause of `c3_proportional_allocation` at a
concrete positive-duration input. -/
theorem c3_proportional_allocation_witness :
    (0 : ℚ) < 2 ∧ ([ ['x'] ] : List (List Char)) ≠ [] ∧
      ((segBounds (3/100) 2
          (([ ['x'] ].map (fun s => (weightOf s : ℚ))).sum) ((5 : ℚ) + 2) 5
          ([ ['x'] ].map (fun s => (weightOf s : ℚ)))).map
            (fun p => p.2 - p.1)
        = ([ ['x'] ].map (fun s => (weightOf s : ℚ))).map
            (fun w => 2 * (w / ([ ['x'] ].map
              (fun s => (weightOf s : ℚ))).sum))) ∧
      ((segBounds (3/100) 2
          (([ ['x'] ].map (fun s => (weightOf s : ℚ))).sum) ((5 : ℚ) + 2) 5
          ([ ['x'] ].map (fun s => (weightOf s : ℚ)))).getLast?.map Prod.snd
        = some ((5 : ℚ) + 2)) :=
  ⟨by norm_num, by simp,
    (c3_proportional_allocation.2 2 5 [ ['x'] ] (by norm_num) (by simp)).1,
    (c3_proportional_allocation.2 2 5 [ ['x'] ] (by norm_num) (by simp)).2⟩

/-- C4 counterexample: with paragraph flags `[false, false, true]`,
gap 0.15 s, paragraph gap 0.6 s, lead-in 0.25 s and unit durations, the
Duration Allocator's sentence start times are 0.25, 1.4 and 3.0 — not the
0.25, 1.4, 2.55 the claim asserts (the paragraph gap 0.6 s, not the
0.15 s inter-sentence gap, precedes the third sentence). -/
theorem c4_counterexample :
    sentenceStarts 250 150 600 [false, false, true] [1, 1, 1]
        ≠ [1/4, 7/5, 51/20] := by
  have h : sentenceStarts 250 150 600 [false, false, true] [1, 1, 1]
      = [1/4, 7/5, 3] := by
    norm_num [sentenceStarts, gapsAfter, startsAux]
  rw [h]
  intro hcontra
  have := List.getElem_of_eq hcontra (i := 2) (by simp)
  norm_num at this

/-- C4 (amended): with paragraph flags `[false, false, true]`, gap 0.15 s,
paragraph gap 0.6 s, lead-in 0.25 s and per-sentence durations
`[1.0, 1.0, 1.0]`, the sentence start times are 0.25, 1.4 and 3.0: the gap
after a sentence is the paragraph gap when the next sentence starts a
paragraph and the inter-sentence gap otherwise, and the final sentence
adds no trailing gap. -/
theorem c4_sentence_starts :
    sentenceStarts 250 150 600 [false, false, true] [1, 1, 1]
        = [1/4, 7/5, 3] := by
  norm_num [sentenceStarts, gapsAfter, startsAux]

/-! ## Lemmas about the line wrapper and the pixel-fit estimator -/

theorem joinSp_snoc (w : List Char) :
    ∀ (cur : List (List Char)), cur ≠ [] →
      (List.intercalate [' '] (cur ++ [w])).length
        = (List.intercalate [' '] cur).length + 1 + w.length
  | [], h => absurd rfl h
  | [x], _ => by
    simp [intercalate_two, intercalate_one, List.length_append]
    omega
  | x :: y :: t, _ => by
    have ih := joinSp_snoc w (y :: t) (by simp)
    simp only [List.cons_append] at ih ⊢
    rw [intercalate_two, List.length_append, List.length_append, ih,
      intercalate_two, List.length_append, List.length_append]
    omega

theorem phraseChunkAux_bound (maxCols : ℕ) :
    ∀ (words cur : List (List Char)) (curLen : ℕ),
      (∀ w ∈ words, w.length < maxCols) →
      (cur = [] ∨ (curLen = (List.intercalate [' '] cur).length
        ∧ curLen ≤ maxCols)) →
      ∀ l ∈ phraseChunkAux maxCols cur curLen words, l.length ≤ maxCols
  | [], cur, curLen, _, hinv => by
    cases cur with
    | nil => simp [phraseChunkAux]
    | cons x t =>
      rcases hinv with h | ⟨hlen, hle⟩
      · exact absurd h (by simp)
      · intro l hl
        simp only [phraseChunkAux, List.isEmpty_cons, if_false,
          Bool.false_eq_true, List.mem_singleton] at hl
        subst hl
        omega
  | w :: rest, cur, curLen, hwords, hinv => by
    have hw : w.length < maxCols := hwords w (List.mem_cons_self w rest)
    have hrest : ∀ x ∈ rest, x.length < maxCols :=
      fun x hx => hwords x (List.mem_cons_of_mem w hx)
    cases cur with
    | nil =>
      intro l hl
      simp only [phraseChunkAux, List.isEmpty_nil, if_true] at hl
      exact phraseChunkAux_bound maxCols rest [w] w.length hrest
        (Or.inr ⟨by simp [intercalate_one], le_of_lt hw⟩) l hl
    | cons x t =>
      rcases hinv with h | ⟨hlen, hle⟩
      · exact absurd h (by simp)
      · intro l hl
        simp only [phraseChunkAux, List.isEmpty_cons, Bool.false_eq_true,
          if_false] at hl
        by_cases hc : maxCols < curLen + 1 + w.length
        · rw [if_pos hc] at hl
          rcases List.mem_cons.1 hl with h1 | h2
          · subst h1; omega
          · exact phraseChunkAux_bound maxCols rest [w] w.length hrest
              (Or.inr ⟨by simp [intercalate_one], le_of_lt hw⟩) l h2
        · rw [if_neg hc] at hl
          exact phraseChunkAux_bound maxCols rest ((x :: t) ++ [w])
            (curLen + 1 + w.length) hrest
            (Or.inr ⟨by rw [joinSp_snoc w (x :: t) (by simp), ← hlen],
              by omega⟩) l hl

/-- C6: for any input words each individually shorter than `max_columns`,
the greedy word-wrapper `_phrase_chunk` never returns a line whose
character count exceeds `max_columns`: words accumulate into a line while
`current_line_length + 1 + next_word_length` stays within the budget,
otherwise a new line starts. -/
theorem c6_wrap_bound (maxCols : ℕ) (words : List (List Char))
    (hwords : ∀ w ∈ words, w.length < maxCols) :
    ∀ l ∈ phraseChunk words maxCols, l.length ≤ maxCols :=
  phraseChunkAux_bound maxCols words [] 0 hwords (Or.inl rfl)

/-- Witness for `c6_wrap_bound` at a concrete input. -/
theorem c6_wrap_bound_witness :
    (∀ w ∈ [['a', 'b'], ['c', 'd'], ['e', 'f', 'g']], w.length < 5) ∧
      ∀ l ∈ phraseChunk [['a', 'b'], ['c', 'd'], ['e', 'f', 'g']] 5,
        l.length ≤ 5 :=
  ⟨by decide, c6_wrap_bound 5 [['a', 'b'], ['c', 'd'], ['e', 'f', 'g']]
    (by decide)⟩

/-- C7: `max_columns` equals `floor(usable_width_px / avg_glyph_px)` where
`usable_width_px` is the width minus the margins floored at 40 px and
`avg_glyph_px` is `font_size` times the glyph-width factor clamped to
`[0.35, 0.9]`, floored at 10 px, the result clamped to `[18, 120]`
columns, for every geometry. -/
theorem clamp_comm_int (c : ℤ) : max 18 (min 120 c) = min (max c 18) 120 := by
  rcases le_total c 18 with h | h <;> rcases le_total c 120 with h2 | h2 <;>
    simp [max_def, min_def] <;> split_ifs <;> omega

theorem clamp_comm_rat (f : ℚ) :
    max (35/100) (min (9/10) f) = min (max f (35/100)) (9/10) := by
  rcases le_total f (35/100) with h | h <;> rcases le_total f (9/10) with h2 | h2 <;>
    simp [max_def, min_def] <;> split_ifs <;> linarith

theorem c7_max_cols (w marginL marginR fontPx : ℤ) (cwf : ℚ) :
    estimateMaxCols w marginL marginR fontPx cwf
      = specMaxCols w marginL marginR fontPx cwf := by
  simp only [estimateMaxCols, specMaxCols]
  rw [clamp_comm_rat, max_comm (40 : ℤ), max_comm (10 : ℚ), clamp_comm_int]

/-! ## Lemmas about the sentence splitter -/

/-- C9: the sentence splitter turns `"Mr. Smith left. He returned."` into
exactly two sentences, and in general the accumulation step merges a
candidate into the previous sentence (leaving the sentence count
unchanged) only when the previous sentence ends with a known non-terminal
abbreviation and the candidate does not start with a common sentence
starter. -/
theorem c9_abbrev_merge :
    split_into_sentences "Mr. Smith left. He returned.".data
        = [("Mr. Smith left.".data, false), ("He returned.".data, false)] ∧
      ∀ (seenPara : Bool) (out : List (List Char × Bool)) (firstInPara : Bool)
        (part : List Char),
        (sentStep seenPara out firstInPara part).length = out.length →
        (∃ prev, out.getLast? = some prev ∧ endsWithAbbrev prev.1 = true) ∧
          startsLikeNewSentence part = false := by
  constructor
  · simp [split_into_sentences, splitDoubleNL, goParas, procParts, sentStep,
      sentSplitParts, sentSplitAux, wordsOf, endsWithAbbrev,
      startsLikeNewSentence, pyStrip, dropEnd, List.rdropWhile, isPyWS,
      isTermPunct, lowerL, abbrevTokens, starterTokens, closingQuoteChars,
      openingQuoteChars, List.dropWhile_cons, List.takeWhile_cons,
      List.getLast?]
  · intro seenPara out firstInPara part hlen
    unfold sentStep at hlen
    cases hl : out.getLast? with
    | none =>
      rw [hl] at hlen
      simp at hlen
    | some prev =>
      rw [hl] at hlen
      simp only [] at hlen
      by_cases hc : (!firstInPara && endsWithAbbrev prev.1
          && !startsLikeNewSentence part) = true
      · rcases Bool.and_eq_true_iff.1 hc with ⟨hc1, hc3⟩
        rcases Bool.and_eq_true_iff.1 hc1 with ⟨_, hc2⟩
        refine ⟨⟨prev, rfl, hc2⟩, ?_⟩
        cases hstart : startsLikeNewSentence part
        · rfl
        · rw [hstart] at hc3; simp at hc3
      · rw [if_neg hc] at hlen
        simp at hlen

/-- Witness for the merge clause of `c9_abbrev_merge`: at the concrete
merging input the sentence count stays 1 and the two conditions hold. -/
theorem c9_abbrev_merge_witness :
    (sentStep false [("Mr.".data, false)] false "Smith".data).length = 1 ∧
      ((∃ prev, [("Mr.".data, false)].getLast? = some prev
          ∧ endsWithAbbrev prev.1 = true) ∧
        startsLikeNewSentence "Smith".data = false) :=
  ⟨by simp [sentStep, endsWithAbbrev, startsLikeNewSentence, wordsOf,
      dropEnd, List.rdropWhile, pyStrip, isPyWS, lowerL, abbrevTokens,
      starterTokens, closingQuoteChars, openingQuoteChars,
      List.dropWhile_cons, List.takeWhile_cons, List.getLast?],
   c9_abbrev_merge.2 false [("Mr.".data, false)] false "Smith".data
    (by simp [sentStep, endsWithAbbrev, startsLikeNewSentence, wordsOf,
      dropEnd, List.rdropWhile, pyStrip, isPyWS, lowerL, abbrevTokens,
      starterTokens, closingQuoteChars, openingQuoteChars,
      List.dropWhile_cons, List.takeWhile_cons, List.getLast?])⟩

/-! ## Lemmas about the SRT writer -/

/-- C10: in the SRT document produced by the pipeline, every block's end
timestamp is at least 10 milliseconds after its start timestamp, even when
centisecond rounding of the underlying ASS timestamps would make the two
equal. -/
theorem c10_srt_floor (leadInMs cliMs cloMs : ℤ) (pieces : List Piece)
    (p : ℕ × ℕ)
    (hp : p ∈ srtTimes ((generateEvents leadInMs cliMs cloMs pieces).map
      (fun e => (e.start, e.stop)))) :
    p.1 + 10 ≤ p.2 := by
  obtain ⟨ev, _, rfl⟩ := List.mem_map.1 hp
  exact le_max_right _ _

theorem formatTsParts_small (q : ℚ) (h0 : 0 ≤ q) (h1 : q < 1) :
    formatTsParts q = (0, 0, 0, (round (q * 100)).toNat) := by
  have hmax : max (0 : ℚ) q = q := max_eq_right h0
  have hf3600 : (⌊q / 3600⌋ : ℤ) = 0 := by
    apply Int.floor_eq_iff.2
    constructor
    · simpa using div_nonneg h0 (by norm_num)
    · simpa using (div_lt_one (by norm_num : (0:ℚ) < 3600)).2 (by linarith)
  have hf60 : (⌊q / 60⌋ : ℤ) = 0 := by
    apply Int.floor_eq_iff.2
    constructor
    · simpa using div_nonneg h0 (by norm_num)
    · simpa using (div_lt_one (by norm_num : (0:ℚ) < 60)).2 (by linarith)
  have hf1 : (⌊q⌋ : ℤ) = 0 := by
    apply Int.floor_eq_iff.2
    simpa using ⟨h0, h1⟩
  simp only [formatTsParts, hmax, hf3600, hf60, hf1, Int.cast_zero, mul_zero,
    sub_zero, Int.toNat_zero]

theorem formatTsParts_zero : formatTsParts 0 = (0, 0, 0, 0) := by
  rw [formatTsParts_small 0 le_rfl (by norm_num)]
  norm_num

theorem formatTsParts_three_cs : formatTsParts (3/100) = (0, 0, 0, 3) := by
  rw [formatTsParts_small (3/100) (by norm_num) (by norm_num)]
  have hr : round ((3/100 : ℚ) * 100) = (3 : ℤ) := by
    have : (3/100 : ℚ) * 100 = 3 := by norm_num
    rw [this, round_eq]
    apply Int.floor_eq_iff.2
    norm_num
  rw [hr]
  rfl

/-- Witness for `c10_srt_floor` at a concrete input: a sentence of
duration 0 yields the event `(0 s, 0.03 s)`, whose SRT block times are
0 ms and 30 ms, at least 10 ms apart. -/
theorem c10_srt_floor_witness :
    ((0 : ℕ), (30 : ℕ)) ∈ srtTimes ((generateEvents 0 0 0
        [⟨[['a']], 0, 0⟩]).map (fun e => (e.start, e.stop))) ∧
      (0 : ℕ) + 10 ≤ 30 := by
  have hw : weightOf ['a'] = 1 := by decide
  have hev : (generateEvents 0 0 0 [⟨[['a']], 0, 0⟩]).map
      (fun e => (e.start, e.stop)) = [(0, 3/100)] := by
    norm_num [generateEvents, buildEventsAux, sentEvents, pushEvent,
      segBounds, hw, List.getLast?]
  have hsrt : srtTimes [((0 : ℚ), 3/100)] = [(0, 30)] := by
    simp [srtTimes, formatTsParts_zero, formatTsParts_three_cs, assToMsParts]
  have hmem : ((0 : ℕ), (30 : ℕ)) ∈ srtTimes ((generateEvents 0 0 0
      [⟨[['a']], 0, 0⟩]).map (fun e => (e.start, e.stop))) := by
    rw [hev, hsrt]
    simp
  exact ⟨hmem, c10_srt_floor 0 0 0 [⟨[['a']], 0, 0⟩] (0, 30) hmem⟩

/-- **C5**: when every character of the input is whitespace (in particular
for the empty input), `clean_text` yields the empty string, no sentences
are found, and `generate_assets_from_story` fails with the explicit error
"No sentences found after cleaning text" before any timing is computed. -/
theorem c5_empty_input {x : List Char} (h : ∀ c ∈ x, isPyWS c = true) :
    generateAssetsCheck x
      = Except.error "No sentences found after cleaning text".data := by
  simp only [generateAssetsCheck]
  rw [clean_text_ws_nil h]
  rfl

/-- Witness for `c5_empty_input` at the concrete whitespace-only input
`" \n\t"`. -/
theorem c5_empty_input_witness :
    generateAssetsCheck (' ' :: '\n' :: '\t' :: [])
      = Except.error "No sentences found after cleaning text".data :=
  c5_empty_input (by decide)

/-- Counterexample to **C8**: `clean_text` is not idempotent for every
string.  For `"a\n\x1c\n\x1c\nb"` the six rewrite passes change nothing
(`\x1c` is outside their ASCII character classes), but the per-line
`str.strip()` erases the two `\x1c` lines, yielding `"a\n\n\nb"` — a
triple newline created after the `\n{3,}` pass has already run — so a
second application collapses it to `"a\n\nb"`. -/
theorem c8_counterexample :
    clean_text_py (clean_text_py
        ('a' :: '\n' :: '\x1c' :: '\n' :: '\x1c' :: '\n' :: 'b' :: []))
      ≠ clean_text_py
        ('a' :: '\n' :: '\x1c' :: '\n' :: '\x1c' :: '\n' :: 'b' :: []) := by
  have h1 : clean_text_py
      ('a' :: '\n' :: '\x1c' :: '\n' :: '\x1c' :: '\n' :: 'b' :: [])
      = 'a' :: '\n' :: '\n' :: '\n' :: 'b' :: [] := by
    simp only [clean_text_py, collapseTabs, collapseHWS]
    rw [replCRLF_id _ (by decide), replCR_id (by decide),
      collapseRuns_id (p := fun c => c == '\t') (r := ' ') _ (by decide),
      collapseRuns_id (p := isHWS) (r := ' ') _ (by decide),
      trimNL_id _ (by decide)
        (by simp [List.chain'_cons, List.chain'_singleton, spOK]),
      collapseNL3_id _ (by decide)]
    decide
  have e1 : collapseNL3 ('a' :: '\n' :: '\n' :: '\n' :: 'b' :: [])
      = 'a' :: collapseNL3 ('\n' :: '\n' :: '\n' :: 'b' :: []) :=
    collapseNL3.eq_2 'a' _ (by
      intro r1 ha hb
      exact absurd ha (by decide))
  have e2 : collapseNL3 ('\n' :: '\n' :: '\n' :: 'b' :: [])
      = '\n' :: '\n' :: collapseNL3 (('b' :: []).dropWhile (fun c => c == '\n')) := by
    rw [collapseNL3]
  have e3 : ('b' :: []).dropWhile (fun c => c == '\n') = 'b' :: [] := by decide
  have e4 : collapseNL3 ('b' :: []) = 'b' :: collapseNL3 [] :=
    collapseNL3.eq_2 'b' _ (by
      intro r1 ha hb
      exact absurd ha (by decide))
  have e5 : collapseNL3 ([] : List Char) = [] := by simp [collapseNL3]
  have h2 : clean_text_py ('a' :: '\n' :: '\n' :: '\n' :: 'b' :: [])
      = 'a' :: '\n' :: '\n' :: 'b' :: [] := by
    simp only [clean_text_py, collapseTabs, collapseHWS]
    rw [replCRLF_id _ (by decide), replCR_id (by decide),
      collapseRuns_id (p := fun c => c == '\t') (r := ' ') _ (by decide),
      collapseRuns_id (p := isHWS) (r := ' ') _ (by decide),
      trimNL_id _ (by decide)
        (by simp [List.chain'_cons, List.chain'_singleton, spOK]),
      e1, e2, e3, e4, e5]
    decide
  rw [h1, h2]
  decide

/-- **C8** (corrected): text normalization maps the empty string to the
empty string, and is idempotent on every string whose Python-whitespace
characters all lie in the ASCII class `" \t\n\r\f\v"`; it is not
idempotent for arbitrary strings (see the counterexample above), because
the per-line `str.strip()` also erases the non-ASCII whitespace
characters, which can create a fresh triple newline after the `\n{3,}`
pass has run. -/
theorem c8_idempotent :
    (∀ x : List Char, (∀ c ∈ x, isPyWSFull c = isPyWS c) →
        clean_text_py (clean_text_py x) = clean_text_py x) ∧
      clean_text_py [] = [] := by
  constructor
  · intro x h
    have hcx : ∀ c ∈ clean_text x, isPyWSFull c = isPyWS c := by
      intro c hc
      rcases clean_text_mem c hc with h1 | h1 | h1
      · exact h c h1
      · rw [h1]
        decide
      · rw [h1]
        decide
    rw [clean_text_py_eq h, clean_text_py_eq hcx,
      clean_id_of_inv (cleanInv_clean x)]
  · rw [clean_text_py_eq (by intro c hc; cases hc)]
    exact clean_id_of_inv cleanInv_nil

/-- Witness for `c8_idempotent` at the concrete ASCII input `" a\n\nb "`:
its characters are all ASCII, and normalizing it twice equals normalizing
it once. -/
theorem c8_idempotent_witness :
    (∀ c ∈ (' ' :: 'a' :: '\n' :: '\n' :: 'b' :: ' ' :: []),
        isPyWSFull c = isPyWS c) ∧
      clean_text_py (clean_text_py (' ' :: 'a' :: '\n' :: '\n' :: 'b' :: ' ' :: []))
        = clean_text_py (' ' :: 'a' :: '\n' :: '\n' :: 'b' :: ' ' :: []) :=
  ⟨by decide, c8_idempotent.1 _ (by decide)⟩

end Vox9
